import Mathlib

/-!
A verification development for the Jira-to-Markdown converter of
`internal/markdown` (function `ConvertJiraToMarkdown` and its stage
functions).  Each Go stage is embedded as an executable Lean function on
`List Char` (wrapped into `String`-level functions keeping the Go names).
The Go regular expressions are hand-compiled into explicit scanners that
follow Go's leftmost-first matching with greedy/lazy quantifier semantics.
-/

namespace JiraMd

/-! ### Generic character and list helpers -/

/-- The character class matched by `\s` in Go's `regexp` package:
space, tab, newline, form feed, carriage return. -/
def regexSpace (c : Char) : Bool :=
  c == ' ' || c == '\t' || c == '\n' || c == '\x0c' || c == '\r'

/-- Unicode white space as used by Go's `unicode.IsSpace`
(`strings.TrimSpace`, `strings.Fields`). -/
def unicodeSpace (c : Char) : Bool :=
  c == ' ' || c == '\t' || c == '\n' || c == '\x0b' || c == '\x0c' ||
  c == '\r' || c == '\u0085' || c == ' ' || c == ' ' ||
  (' ' ≤ c && c ≤ ' ') || c == ' ' || c == ' ' ||
  c == ' ' || c == ' ' || c == '　'

/-- `strings.TrimRight` with an explicit cut set of characters. -/
def trimRightIn (cut : List Char) (l : List Char) : List Char :=
  (l.reverse.dropWhile (fun c => cut.contains c)).reverse

/-- `strings.TrimLeft` with an explicit cut set of characters. -/
def trimLeftIn (cut : List Char) (l : List Char) : List Char :=
  l.dropWhile (fun c => cut.contains c)

/-- `strings.Trim` with an explicit cut set of characters. -/
def trimBothIn (cut : List Char) (l : List Char) : List Char :=
  trimRightIn cut (trimLeftIn cut l)

/-- `strings.TrimSpace`. -/
def trimSpace (l : List Char) : List Char :=
  ((l.dropWhile unicodeSpace).reverse.dropWhile unicodeSpace).reverse

/-- `strings.Split(s, sep)` for a one-character separator. -/
def splitOnChar (d : Char) : List Char → List (List Char)
  | [] => [[]]
  | c :: cs =>
    if c == d then [] :: splitOnChar d cs
    else
      match splitOnChar d cs with
      | l :: ls => (c :: l) :: ls
      | [] => [[c]]

theorem length_dropWhile_le {α : Type} (p : α → Bool) (l : List α) :
    (l.dropWhile p).length ≤ l.length := by
  induction l with
  | nil => simp [List.dropWhile]
  | cons c cs ih =>
    by_cases h : p c
    · simp [List.dropWhile, h]; omega
    · simp [List.dropWhile, h]

theorem length_dropWhile_lt {α : Type} (p : α → Bool) (c : α) (cs : List α)
    (h : p c = true) :
    ((c :: cs).dropWhile p).length < (c :: cs).length := by
  have := length_dropWhile_le p cs
  simp [List.dropWhile, h]
  omega

theorem takeWhile_ne_nil_dropWhile_lt {α : Type} (p : α → Bool) (l : List α)
    (h : l.takeWhile p ≠ []) : (l.dropWhile p).length < l.length := by
  cases l with
  | nil => simp [List.takeWhile] at h
  | cons c cs =>
    by_cases hc : p c
    · have := length_dropWhile_le p cs
      simp [List.dropWhile, hc]
      omega
    · simp [List.takeWhile, hc] at h

theorem dropWhile_eq_cons_length {α : Type} (p : α → Bool) (l r : List α) (c : α)
    (h : l.dropWhile p = c :: r) : r.length < l.length := by
  have := length_dropWhile_le p l
  rw [h] at this
  simp at this
  omega

/-- A fuelled stateless replacement scanner: at each position try a
matcher; on success emit its replacement and continue after the match,
otherwise emit the character and move one position right.  With fuel at
least the input length it is the total scan (each step consumes at least
one character). -/
def scanSF (step : List Char → Option (List Char × List Char)) :
    Nat → List Char → List Char
  | 0, l => l
  | _ + 1, [] => []
  | n + 1, c :: cs =>
    match step (c :: cs) with
    | some (repl, rest) => repl ++ scanSF step n rest
    | none => c :: scanSF step n cs

/-- A fuelled scanner carrying the `(?m)^` line-start flag. -/
def scanGo (step : Bool → List Char → Option (List Char × List Char)) :
    Nat → Bool → List Char → List Char
  | 0, _, l => l
  | _ + 1, _, [] => []
  | n + 1, b, c :: cs =>
    match step b (c :: cs) with
    | some (repl, rest) => repl ++ scanGo step n false rest
    | none => c :: scanGo step n (c == '\n') cs

theorem scanSF_cons (step : List Char → Option (List Char × List Char))
    (n : Nat) (c : Char) (cs : List Char) :
    scanSF step (n + 1) (c :: cs) =
      match step (c :: cs) with
      | some (repl, rest) => repl ++ scanSF step n rest
      | none => c :: scanSF step n cs := rfl

theorem scanGo_cons (step : Bool → List Char → Option (List Char × List Char))
    (n : Nat) (b : Bool) (c : Char) (cs : List Char) :
    scanGo step (n + 1) b (c :: cs) =
      match step b (c :: cs) with
      | some (repl, rest) => repl ++ scanGo step n false rest
      | none => c :: scanGo step n (c == '\n') cs := rfl

theorem scanSF_nil (step : List Char → Option (List Char × List Char)) :
    ∀ n, scanSF step n [] = [] := by
  intro n; cases n <;> rfl

theorem scanGo_nil (step : Bool → List Char → Option (List Char × List Char)) :
    ∀ n b, scanGo step n b [] = [] := by
  intro n b; cases n <;> rfl

theorem scanSF_mono (step : List Char → Option (List Char × List Char))
    (hstep : ∀ l repl rest, step l = some (repl, rest) → rest.length < l.length) :
    ∀ n m l, l.length ≤ n → l.length ≤ m → scanSF step n l = scanSF step m l := by
  intro n
  induction n with
  | zero =>
    intro m l h1 h2
    have : l = [] := List.eq_nil_of_length_eq_zero (by omega)
    subst this
    rw [scanSF_nil, scanSF_nil]
  | succ n ih =>
    intro m l h1 h2
    cases l with
    | nil => rw [scanSF_nil, scanSF_nil]
    | cons c cs =>
      cases m with
      | zero => simp at h2
      | succ m =>
        rw [scanSF_cons, scanSF_cons]
        cases hs : step (c :: cs) with
        | some pr =>
          obtain ⟨repl, rest⟩ := pr
          have hr := hstep _ _ _ hs
          simp only [List.length_cons] at hr h1 h2
          dsimp only
          rw [ih m rest (by omega) (by omega)]
        | none =>
          simp only [List.length_cons] at h1 h2
          dsimp only
          rw [ih m cs (by omega) (by omega)]

theorem scanGo_mono (step : Bool → List Char → Option (List Char × List Char))
    (hstep : ∀ b l repl rest, step b l = some (repl, rest) → rest.length < l.length) :
    ∀ n m b l, l.length ≤ n → l.length ≤ m → scanGo step n b l = scanGo step m b l := by
  intro n
  induction n with
  | zero =>
    intro m b l h1 h2
    have : l = [] := List.eq_nil_of_length_eq_zero (by omega)
    subst this
    rw [scanGo_nil, scanGo_nil]
  | succ n ih =>
    intro m b l h1 h2
    cases l with
    | nil => rw [scanGo_nil, scanGo_nil]
    | cons c cs =>
      cases m with
      | zero => simp at h2
      | succ m =>
        rw [scanGo_cons, scanGo_cons]
        cases hs : step b (c :: cs) with
        | some pr =>
          obtain ⟨repl, rest⟩ := pr
          have hr := hstep _ _ _ _ hs
          simp only [List.length_cons] at hr h1 h2
          dsimp only
          rw [ih m false rest (by omega) (by omega)]
        | none =>
          simp only [List.length_cons] at h1 h2
          dsimp only
          rw [ih m (c == '\n') cs (by omega) (by omega)]

/-- `strings.Fields`: split around runs of Unicode white space. -/
def fieldsF : Nat → List Char → List (List Char)
  | 0, _ => []
  | _ + 1, [] => []
  | n + 1, c :: cs =>
    if unicodeSpace c then fieldsF n cs
    else
      (c :: cs.takeWhile (fun x => !unicodeSpace x)) ::
        fieldsF n (cs.dropWhile (fun x => !unicodeSpace x))

def fields (l : List Char) : List (List Char) := fieldsF l.length l

/-! ### Newline normalization (`ConvertJiraToMarkdown`, lines 153–154) -/

/-- `strings.ReplaceAll(text, "\r\n", "\n")`: left-to-right scan over
non-overlapping occurrences. -/
def normalizeCrlf : List Char → List Char
  | [] => []
  | [c] => [c]
  | c1 :: c2 :: cs =>
    if c1 = '\r' ∧ c2 = '\n' then '\n' :: normalizeCrlf cs
    else c1 :: normalizeCrlf (c2 :: cs)

/-- `strings.ReplaceAll(s, "\r", "\n")`. -/
def normalizeCr (l : List Char) : List Char :=
  l.map (fun c => if c == '\r' then '\n' else c)

/-- Both newline-normalization replacements, in the order the Go code
applies them. -/
def normalizeNewlines (s : String) : String :=
  ⟨normalizeCr (normalizeCrlf s.data)⟩

/-- Spec-side single-pass description of the normalizer: every `\r\n`
pair becomes one `\n`, and every remaining lone `\r` becomes `\n`. -/
def specNewlineNormalize : List Char → List Char
  | [] => []
  | [c] => [if c = '\r' then '\n' else c]
  | c1 :: c2 :: cs =>
    if c1 = '\r' ∧ c2 = '\n' then '\n' :: specNewlineNormalize cs
    else (if c1 = '\r' then '\n' else c1) :: specNewlineNormalize (c2 :: cs)

/-! ### Headings (`convertHeadings`)

Hand-compilation of `(?m)^h([1-6])\.\s*(.*)$` under
`ReplaceAllStringFunc`: a match can only start at a line start; after
`hN.` the greedy `\s*` absorbs the maximal white-space run and `(.*)$`
takes the remainder of the line. -/

def tryHeading (cs : List Char) : Option (List Char × List Char) :=
  match cs with
  | 'h' :: d :: '.' :: rest =>
    if '1' ≤ d ∧ d ≤ '6' then
      let r1 := rest.dropWhile regexSpace
      let title := r1.takeWhile (fun c => c != '\n')
      let r2 := r1.dropWhile (fun c => c != '\n')
      some (List.replicate (d.toNat - '0'.toNat) '#' ++ ' ' :: title, r2)
    else none
  | _ => none

theorem tryHeading_length {cs out rest : List Char}
    (h : tryHeading cs = some (out, rest)) : rest.length < cs.length := by
  simp only [tryHeading] at h
  split at h
  all_goals try exact absurd h (fun hc => Option.noConfusion hc)
  split at h
  all_goals try exact absurd h (fun hc => Option.noConfusion hc)
  rename_i d r _
  simp only [Option.some.injEq, Prod.mk.injEq] at h
  obtain ⟨-, h2⟩ := h
  have h1 := length_dropWhile_le regexSpace r
  have h3 := length_dropWhile_le (fun c => c != '\n') (r.dropWhile regexSpace)
  subst h2
  simp
  omega

/-- One candidate match of the heading scanner: matches can only start
at a line start. -/
def headingsStep (b : Bool) (l : List Char) : Option (List Char × List Char) :=
  if b then tryHeading l else none

theorem headingsStep_length :
    ∀ (b : Bool) (l repl rest : List Char),
      headingsStep b l = some (repl, rest) → rest.length < l.length := by
  intro b l repl rest h
  unfold headingsStep at h
  split at h
  · exact tryHeading_length h
  · exact Option.noConfusion h

def headingsGo (atLS : Bool) (l : List Char) : List Char :=
  scanGo headingsStep l.length atLS l

/-- Go `convertHeadings`. -/
def convertHeadings (s : String) : String := ⟨headingsGo true s.data⟩

/-! ### Lists (`convertLists`)

Hand-compilation of `(?m)^(?:[ \t]*)([*#]+)\s+(.*)$` under
`ReplaceAllStringFunc`.  The leading `[ \t]*` is consumed but dropped by
the replacement, which emits `2*(level-1)` spaces, a `- ` or `1. `
prefix chosen by the first marker character, and the content. -/

def tryList (cs : List Char) : Option (List Char × List Char) :=
  let r0 := cs.dropWhile (fun c => c == ' ' || c == '\t')
  let marks := r0.takeWhile (fun c => c == '*' || c == '#')
  let r1 := r0.dropWhile (fun c => c == '*' || c == '#')
  let ws2 := r1.takeWhile regexSpace
  let r2 := r1.dropWhile regexSpace
  match marks, ws2 with
  | [], _ => none
  | _ :: _, [] => none
  | m :: ms, _ :: _ =>
    let content := r2.takeWhile (fun c => c != '\n')
    let r3 := r2.dropWhile (fun c => c != '\n')
    some (List.replicate (2 * ms.length) ' ' ++
      (if m == '*' then '-' :: ' ' :: content else '1' :: '.' :: ' ' :: content), r3)

theorem tryList_length {cs out rest : List Char}
    (h : tryList cs = some (out, rest)) : rest.length < cs.length := by
  simp only [tryList] at h
  split at h
  all_goals try exact absurd h (fun hc => Option.noConfusion hc)
  rename_i m ms x xs heqm heqw
  simp only [Option.some.injEq, Prod.mk.injEq] at h
  obtain ⟨-, h2⟩ := h
  have e0 := length_dropWhile_le (fun c => c == ' ' || c == '\t') cs
  have e1 : ((cs.dropWhile (fun c => c == ' ' || c == '\t')).dropWhile
      (fun c => c == '*' || c == '#')).length <
      (cs.dropWhile (fun c => c == ' ' || c == '\t')).length := by
    apply takeWhile_ne_nil_dropWhile_lt
    rw [heqm]; simp
  have e2 : (((cs.dropWhile (fun c => c == ' ' || c == '\t')).dropWhile
      (fun c => c == '*' || c == '#')).dropWhile regexSpace).length <
      ((cs.dropWhile (fun c => c == ' ' || c == '\t')).dropWhile
      (fun c => c == '*' || c == '#')).length := by
    apply takeWhile_ne_nil_dropWhile_lt
    rw [heqw]; simp
  have e3 := length_dropWhile_le (fun c => c != '\n')
    (((cs.dropWhile (fun c => c == ' ' || c == '\t')).dropWhile
      (fun c => c == '*' || c == '#')).dropWhile regexSpace)
  subst h2
  omega

def listsStep (b : Bool) (l : List Char) : Option (List Char × List Char) :=
  if b then tryList l else none

theorem listsStep_length :
    ∀ (b : Bool) (l repl rest : List Char),
      listsStep b l = some (repl, rest) → rest.length < l.length := by
  intro b l repl rest h
  unfold listsStep at h
  split at h
  · exact tryList_length h
  · exact Option.noConfusion h

def listsGo (atLS : Bool) (l : List Char) : List Char :=
  scanGo listsStep l.length atLS l

/-- Go `convertLists`. -/
def convertLists (s : String) : String := ⟨listsGo true s.data⟩

/-! ### Links (`convertLinks`)

First pass: `\[([^\]|]+)\|([^\]]+)\]` replaced by `[$1]($2)`.
Second pass: `\[(https?://[^\]]+)\]` replaced by `$1`. -/

def tryLink1 (cs : List Char) : Option (List Char × List Char × List Char) :=
  match cs with
  | c :: rest =>
    if c == '[' then
      match rest.takeWhile (fun x => x != ']' && x != '|'),
          rest.dropWhile (fun x => x != ']' && x != '|') with
      | t@(_ :: _), '|' :: r2 =>
        (match r2.takeWhile (fun x => x != ']'),
            r2.dropWhile (fun x => x != ']') with
         | u@(_ :: _), ']' :: r4 => some (t, u, r4)
         | _, _ => none)
      | _, _ => none
    else none
  | [] => none

theorem tryLink1_length {cs t u rest : List Char}
    (h : tryLink1 cs = some (t, u, rest)) : rest.length < cs.length := by
  simp only [tryLink1] at h
  split at h
  all_goals try exact absurd h (fun hc => Option.noConfusion hc)
  split at h
  all_goals try exact absurd h (fun hc => Option.noConfusion hc)
  split at h
  all_goals try exact absurd h (fun hc => Option.noConfusion hc)
  rename_i a as r2 heqt heqr
  split at h
  all_goals try exact absurd h (fun hc => Option.noConfusion hc)
  rename_i b bs r4 hequ heqr3
  simp only [Option.some.injEq, Prod.mk.injEq] at h
  have e1 := dropWhile_eq_cons_length _ _ _ _ heqr
  have e2 := dropWhile_eq_cons_length _ _ _ _ heqr3
  rw [← h.2.2]
  simp
  omega

/-- The replacement `[$1]($2)` for one classic-link match. -/
def link1Step (l : List Char) : Option (List Char × List Char) :=
  (tryLink1 l).map (fun p => ('[' :: p.1 ++ ']' :: '(' :: p.2.1 ++ [')'], p.2.2))

theorem link1Step_length :
    ∀ (l repl rest : List Char),
      link1Step l = some (repl, rest) → rest.length < l.length := by
  intro l repl rest h
  unfold link1Step at h
  cases ht : tryLink1 l with
  | none => rw [ht] at h; exact Option.noConfusion h
  | some p =>
    obtain ⟨t, u, r⟩ := p
    rw [ht] at h
    simp only [Option.map, Option.some.injEq, Prod.mk.injEq] at h
    rw [← h.2]
    exact tryLink1_length ht

def links1Go (l : List Char) : List Char := scanSF link1Step l.length l

/-- The tail `[^\]]+\]` of the bare-URL pattern, after a parsed scheme. -/
def link2Tail (scheme : List Char) (r2 : List Char) :
    Option (List Char × List Char) :=
  match r2.takeWhile (fun c => c != ']'), r2.dropWhile (fun c => c != ']') with
  | u@(_ :: _), ']' :: r4 => some (scheme ++ u, r4)
  | _, _ => none

theorem link2Tail_length {scheme r2 out r : List Char}
    (h : link2Tail scheme r2 = some (out, r)) : r.length < r2.length := by
  simp only [link2Tail] at h
  split at h
  all_goals try exact absurd h (fun hc => Option.noConfusion hc)
  rename_i b bs r4 hequ heqr3
  simp only [Option.some.injEq, Prod.mk.injEq] at h
  rw [← h.2]
  exact dropWhile_eq_cons_length _ _ _ _ heqr3

def httpScheme : List Char := 'h' :: 't' :: 't' :: 'p' :: ':' :: '/' :: '/' :: []

def httpsScheme : List Char :=
  'h' :: 't' :: 't' :: 'p' :: 's' :: ':' :: '/' :: '/' :: []

def tryLink2 (cs : List Char) : Option (List Char × List Char) :=
  match cs with
  | c :: rest =>
    if c == '[' then
      if httpsScheme.isPrefixOf rest then link2Tail httpsScheme (rest.drop 8)
      else if httpScheme.isPrefixOf rest then link2Tail httpScheme (rest.drop 7)
      else none
    else none
  | [] => none

theorem tryLink2_length {cs out rest : List Char}
    (h : tryLink2 cs = some (out, rest)) : rest.length < cs.length := by
  simp only [tryLink2] at h
  split at h
  all_goals try exact absurd h (fun hc => Option.noConfusion hc)
  rename_i c rest'
  split at h
  all_goals try exact absurd h (fun hc => Option.noConfusion hc)
  split at h
  · have e1 := link2Tail_length h
    have e2 : (rest'.drop 8).length ≤ rest'.length := by
      rw [List.length_drop]; omega
    simp
    omega
  · split at h
    · have e1 := link2Tail_length h
      have e2 : (rest'.drop 7).length ≤ rest'.length := by
        rw [List.length_drop]; omega
      simp
      omega
    · exact absurd h (fun hc => Option.noConfusion hc)

theorem tryLink2_step_length :
    ∀ (l repl rest : List Char),
      tryLink2 l = some (repl, rest) → rest.length < l.length := by
  intro l repl rest h
  exact tryLink2_length h

def links2Go (l : List Char) : List Char := scanSF tryLink2 l.length l

/-- Go `convertLinks`: classic `[text|url]` form first, then the bare
`[http(s)://...]` form. -/
def convertLinks (s : String) : String := ⟨links2Go (links1Go s.data)⟩

/-! ### Inline code (`convertInlineCode`)

Hand-compilation of `\{\{([^}]+)\}\}` replaced by a backtick span. -/

def tryInlineCode (cs : List Char) : Option (List Char × List Char) :=
  match cs with
  | c1 :: c2 :: rest =>
    if c1 == '\x7b' && c2 == '\x7b' then
      match rest.takeWhile (fun x => x != '\x7d'),
          rest.dropWhile (fun x => x != '\x7d') with
      | int@(_ :: _), '\x7d' :: '\x7d' :: r2 => some (int, r2)
      | _, _ => none
    else none
  | _ => none

theorem tryInlineCode_length {cs int rest : List Char}
    (h : tryInlineCode cs = some (int, rest)) : rest.length < cs.length := by
  simp only [tryInlineCode] at h
  split at h
  all_goals try exact absurd h (fun hc => Option.noConfusion hc)
  split at h
  all_goals try exact absurd h (fun hc => Option.noConfusion hc)
  split at h
  all_goals try exact absurd h (fun hc => Option.noConfusion hc)
  rename_i a as r2 heqi heqr
  simp only [Option.some.injEq, Prod.mk.injEq] at h
  have e1 := dropWhile_eq_cons_length _ _ _ _ heqr
  rw [← h.2]
  simp at e1 ⊢
  omega

/-- The replacement `` `$1` `` for one inline-code match. -/
def inlineCodeStep (l : List Char) : Option (List Char × List Char) :=
  (tryInlineCode l).map (fun p => ('`' :: p.1 ++ ['`'], p.2))

theorem inlineCodeStep_length :
    ∀ (l repl rest : List Char),
      inlineCodeStep l = some (repl, rest) → rest.length < l.length := by
  intro l repl rest h
  unfold inlineCodeStep at h
  cases ht : tryInlineCode l with
  | none => rw [ht] at h; exact Option.noConfusion h
  | some p =>
    obtain ⟨int, r⟩ := p
    rw [ht] at h
    simp only [Option.map, Option.some.injEq, Prod.mk.injEq] at h
    rw [← h.2]
    exact tryInlineCode_length ht

def inlineCodeGo (l : List Char) : List Char := scanSF inlineCodeStep l.length l

/-- Go `convertInlineCode`. -/
def convertInlineCode (s : String) : String := ⟨inlineCodeGo s.data⟩

/-! ### Inline styles (`convertInlineStyles`)

Four sequential regex replacements: bold `(?m)(^|[^*])\*([^*\n]+)\*`,
italic `_([^_\n]+)_`, strike `-([^\-\n]+)-`, underline `\+([^+\n]+)\+`. -/

def tryDelim (d : Char) (cs : List Char) : Option (List Char × List Char) :=
  match cs with
  | c :: rest =>
    if c == d then
      match rest.takeWhile (fun x => x != d && x != '\n'),
          rest.dropWhile (fun x => x != d && x != '\n') with
      | int@(_ :: _), e :: r2 => if e == d then some (int, r2) else none
      | _, _ => none
    else none
  | [] => none

theorem tryDelim_length {d : Char} {cs int rest : List Char}
    (h : tryDelim d cs = some (int, rest)) : rest.length < cs.length := by
  simp only [tryDelim] at h
  split at h
  all_goals try exact absurd h (fun hc => Option.noConfusion hc)
  rename_i c rest'
  split at h
  all_goals try exact absurd h (fun hc => Option.noConfusion hc)
  split at h
  all_goals try exact absurd h (fun hc => Option.noConfusion hc)
  rename_i a as e r2 heqi heqr
  split at h
  all_goals try exact absurd h (fun hc => Option.noConfusion hc)
  simp only [Option.some.injEq, Prod.mk.injEq] at h
  have e1 : r2.length < rest'.length := dropWhile_eq_cons_length _ _ _ _ heqr
  rw [← h.2]
  simp
  omega

/-- The wrap replacement for one inline-style match. -/
def styleStep (d : Char) (wl wr : List Char) (l : List Char) :
    Option (List Char × List Char) :=
  (tryDelim d l).map (fun p => (wl ++ p.1 ++ wr, p.2))

theorem styleStep_length (d : Char) (wl wr : List Char) :
    ∀ (l repl rest : List Char),
      styleStep d wl wr l = some (repl, rest) → rest.length < l.length := by
  intro l repl rest h
  unfold styleStep at h
  cases ht : tryDelim d l with
  | none => rw [ht] at h; exact Option.noConfusion h
  | some p =>
    obtain ⟨int, r⟩ := p
    rw [ht] at h
    simp only [Option.map, Option.some.injEq, Prod.mk.injEq] at h
    rw [← h.2]
    exact tryDelim_length ht

def styleGo (d : Char) (wl wr : List Char) (l : List Char) : List Char :=
  scanSF (styleStep d wl wr) l.length l

/-- One candidate bold match: at a line start the `^` alternative of
`(^|[^*])` lets the stars open immediately; otherwise a character other
than `*` is consumed as the `$1` context and re-emitted before the
doubled stars. -/
def boldStep (b : Bool) (l : List Char) : Option (List Char × List Char) :=
  match (if b then tryDelim '*' l else none) with
  | some (int, rest) => some ('*' :: '*' :: (int ++ '*' :: '*' :: []), rest)
  | none =>
    match l with
    | c :: cs =>
      if c == '*' then none
      else
        match tryDelim '*' cs with
        | some (int, rest) =>
          some (c :: '*' :: '*' :: (int ++ '*' :: '*' :: []), rest)
        | none => none
    | [] => none

theorem boldStep_length :
    ∀ (b : Bool) (l repl rest : List Char),
      boldStep b l = some (repl, rest) → rest.length < l.length := by
  intro b l repl rest h
  unfold boldStep at h
  split at h
  · rename_i int r heq
    split at heq
    · simp only [Option.some.injEq, Prod.mk.injEq] at h
      rw [← h.2]
      exact tryDelim_length heq
    · exact Option.noConfusion heq
  · split at h
    · rename_i c cs
      split at h
      · exact Option.noConfusion h
      · split at h
        · rename_i int r heq
          simp only [Option.some.injEq, Prod.mk.injEq] at h
          have := tryDelim_length heq
          rw [← h.2]
          simp
          omega
        · exact Option.noConfusion h
    · exact Option.noConfusion h

def boldGo (atLS : Bool) (l : List Char) : List Char :=
  scanGo boldStep l.length atLS l

def boldPass (s : String) : String := ⟨boldGo true s.data⟩

def italicPass (s : String) : String := ⟨styleGo '_' ['*'] ['*'] s.data⟩

def strikePass (s : String) : String := ⟨styleGo '-' ['~', '~'] ['~', '~'] s.data⟩

def underlinePass (s : String) : String :=
  ⟨styleGo '+' ['<', 'u', '>'] ['<', '/', 'u', '>'] s.data⟩

/-- Go `convertInlineStyles`: bold, then italic, strike, underline. -/
def convertInlineStyles (s : String) : String :=
  underlinePass (strikePass (italicPass (boldPass s)))

/-! ### Code blocks (`convertCodeBlocks`)

Hand-compilation of `(?s)\{code(?::([^}\n]+))?\}\n?(.*?)\n?\{code\}`,
replaced one leftmost match at a time in a loop over the whole string. -/

def codeTag : List Char := '\x7b' :: 'c' :: 'o' :: 'd' :: 'e' :: '\x7d' :: []

def quoteTag : List Char :=
  '\x7b' :: 'q' :: 'u' :: 'o' :: 't' :: 'e' :: '\x7d' :: []

/-- The characters of `\{code:`. -/
def codeLangOpen : List Char :=
  '\x7b' :: 'c' :: 'o' :: 'd' :: 'e' :: ':' :: []

/-- Parse `\{code(?::([^}\n]+))?\}` at the start of the input. -/
def codeOpenParse (cs : List Char) :
    Option (Option (List Char) × List Char) :=
  if codeLangOpen.isPrefixOf cs then
    match (cs.drop 6).takeWhile (fun x => x != '\x7d' && x != '\n'),
        (cs.drop 6).dropWhile (fun x => x != '\x7d' && x != '\n') with
    | lang@(_ :: _), '\x7d' :: r3 => some (some lang, r3)
    | _, _ => none
  else if codeTag.isPrefixOf cs then some (none, cs.drop 6)
  else none

/-- The optional `\n?` right after the opening tag (greedy). -/
def skipOneNl (l : List Char) : List Char :=
  match l with
  | c :: cs => if c = '\n' then cs else c :: cs
  | [] => []

/-- Lazy-body search for `\n?\{code\}`: the body ends at the first
position where either `\n{code}` (preferred, shorter body) or `{code}`
begins. -/
def findCodeCloser : List Char → Option (List Char × List Char)
  | [] => none
  | c :: cs =>
    if ('\n' :: codeTag).isPrefixOf (c :: cs) then some ([], (c :: cs).drop 7)
    else if codeTag.isPrefixOf (c :: cs) then some ([], (c :: cs).drop 6)
    else
      match findCodeCloser cs with
      | some (b, r) => some (c :: b, r)
      | none => none

/-- `strings.Join(lines, "\n")`. -/
def joinNl : List (List Char) → List Char
  | [] => []
  | [l] => l
  | l :: ls => l ++ '\n' :: joinNl ls

/-- Prepend a character to the unmatched-prefix component. -/
def consPre (c : Char)
    (o : Option (List Char × Option (List Char) × List Char × List Char)) :
    Option (List Char × Option (List Char) × List Char × List Char) :=
  match o with
  | some (p, lg, b, r) => some (c :: p, lg, b, r)
  | none => none

/-- Leftmost match of the code-block pattern: returns the unmatched
prefix, the optional language, the (raw) body and the suffix after the
closing tag. -/
def findCodeMatch : List Char →
    Option (List Char × Option (List Char) × List Char × List Char)
  | [] => none
  | c :: cs =>
    match codeOpenParse (c :: cs) with
    | some (lang, afterOpen) =>
      (match findCodeCloser (skipOneNl afterOpen) with
       | some (body, rest) => some ([], lang, body, rest)
       | none => consPre c (findCodeMatch cs))
    | none => consPre c (findCodeMatch cs)

/-- The fenced replacement built by Go `convertCodeBlocks`. -/
def fenceRepl (lang : Option (List Char)) (body : List Char) : List Char :=
  '`' :: '`' :: '`' ::
    ((match lang with | some l => trimSpace l | none => []) ++
      '\n' :: trimRightIn ['\n'] body ++ '\n' :: '`' :: '`' :: '`' :: [])

/-- The `for { ... }` replacement loop of Go `convertCodeBlocks`,
fuelled; each iteration removes at least one `{code}` occurrence, so
`length + 1` fuel always reaches the fixpoint. -/
def convertCodeBlocksAux : Nat → List Char → List Char
  | 0, s => s
  | n + 1, s =>
    match findCodeMatch s with
    | none => s
    | some (pre, lang, body, rest) =>
      convertCodeBlocksAux n (pre ++ fenceRepl lang body ++ rest)

/-- Go `convertCodeBlocks`. -/
def convertCodeBlocks (s : String) : String :=
  ⟨convertCodeBlocksAux (s.data.length + 1) s.data⟩

/-! ### Quote blocks (`convertQuoteBlocks`)

Hand-compilation of `(?s)\{quote\}\n?(.*?)\n?\{quote\}`, replaced one
leftmost match at a time. -/

def findQuoteCloser : List Char → Option (List Char × List Char)
  | [] => none
  | c :: cs =>
    if ('\n' :: quoteTag).isPrefixOf (c :: cs) then some ([], (c :: cs).drop 8)
    else if quoteTag.isPrefixOf (c :: cs) then some ([], (c :: cs).drop 7)
    else
      match findQuoteCloser cs with
      | some (b, r) => some (c :: b, r)
      | none => none

def consPreQ (c : Char) (o : Option (List Char × List Char × List Char)) :
    Option (List Char × List Char × List Char) :=
  match o with
  | some (p, b, r) => some (c :: p, b, r)
  | none => none

def findQuoteMatch : List Char → Option (List Char × List Char × List Char)
  | [] => none
  | c :: cs =>
    if quoteTag.isPrefixOf (c :: cs) then
      match findQuoteCloser (skipOneNl ((c :: cs).drop 7)) with
      | some (body, rest) => some ([], body, rest)
      | none => consPreQ c (findQuoteMatch cs)
    else consPreQ c (findQuoteMatch cs)

/-- The replacement built by Go `convertQuoteBlocks`: trim newlines from
both ends of the body, prefix every line with `> `, right-trim spaces. -/
def quoteRepl (body : List Char) : List Char :=
  joinNl
    ((splitOnChar '\n' (trimBothIn ['\n'] body)).map
      (fun l => '>' :: ' ' :: trimRightIn [' '] l))

def convertQuoteBlocksAux : Nat → List Char → List Char
  | 0, s => s
  | n + 1, s =>
    match findQuoteMatch s with
    | none => s
    | some (pre, body, rest) =>
      convertQuoteBlocksAux n (pre ++ quoteRepl body ++ rest)

/-- Go `convertQuoteBlocks`. -/
def convertQuoteBlocks (s : String) : String :=
  ⟨convertQuoteBlocksAux (s.data.length + 1) s.data⟩

/-! ### Tables (`convertTables`, `convertTableBlock`, `parseJiraTableRow`) -/

/-- `strings.ReplaceAll(s, "||", "|")`. -/
def replDoublePipe : List Char → List Char
  | '|' :: '|' :: cs => '|' :: replDoublePipe cs
  | c :: cs => c :: replDoublePipe cs
  | [] => []

/-- `strings.Contains(s, "||")`. -/
def containsDoublePipe : List Char → Bool
  | '|' :: '|' :: _ => true
  | _ :: cs => containsDoublePipe cs
  | [] => false

/-- Go `parseJiraTableRow` on a line, as a list of cells. -/
def parseJiraTableRowL (line : List Char) (header : Bool) : List (List Char) :=
  let t0 := trimSpace line
  let t1 := if header then replDoublePipe t0 else t0
  let t2 := trimBothIn ['|', ' '] t1
  match t2 with
  | [] => []
  | _ =>
    (splitOnChar '|' t2).map
      (fun p => List.intercalate [' '] (fields (trimSpace p)))

/-- Go `parseJiraTableRow` (kept under the source name, `String` level). -/
def parseJiraTableRow (line : String) (header : Bool) : List String :=
  (parseJiraTableRowL line.data header).map (fun c => ⟨c⟩)

/-- `"| " + strings.Join(row, " | ") + " |"`. -/
def renderRow (row : List (List Char)) : List Char :=
  '|' :: ' ' :: (List.intercalate (' ' :: '|' :: ' ' :: []) row ++ ' ' :: '|' :: [])

/-- Go `convertTableBlock` on the lines of one table block. -/
def convertTableBlockL (block : List (List Char)) : List (List Char) :=
  match block with
  | [] => []
  | first :: _ =>
    let isHeader := containsDoublePipe (trimSpace first)
    let header := if isHeader then parseJiraTableRowL first true else []
    let body := if isHeader then block.tail else block
    let rows := (body.filter (fun ln => !(trimSpace ln).isEmpty)).map
      (fun ln => parseJiraTableRowL ln false)
    (if isHeader && !header.isEmpty then
      renderRow header ::
        renderRow (List.replicate header.length ('-' :: '-' :: '-' :: [])) :: []
     else []) ++ rows.map renderRow

/-- Go `convertTableBlock` (source name, `String` level). -/
def convertTableBlock (block : List String) : List String :=
  (convertTableBlockL (block.map String.data)).map (fun c => ⟨c⟩)

/-- A line whose trimmed form starts with `|`. -/
def pipeStart (l : List Char) : Bool :=
  match trimSpace l with
  | '|' :: _ => true
  | _ => false

def convertTablesGoF : Nat → List (List Char) → List (List Char)
  | 0, ls => ls
  | _ + 1, [] => []
  | n + 1, l :: ls =>
    if pipeStart l then
      convertTableBlockL ((l :: ls).takeWhile pipeStart) ++
        convertTablesGoF n ((l :: ls).dropWhile pipeStart)
    else l :: convertTablesGoF n ls

def convertTablesGoL (ls : List (List Char)) : List (List Char) :=
  convertTablesGoF ls.length ls

/-- Go `convertTables`. -/
def convertTables (s : String) : String :=
  ⟨joinNl (convertTablesGoL (splitOnChar '\n' s.data))⟩

/-! ### The pipeline (`ConvertJiraToMarkdown`) -/

/-- The final neatness pass: strip trailing spaces and tabs from every
line. -/
def trimTrailingWs (s : String) : String :=
  ⟨joinNl ((splitOnChar '\n' s.data).map (trimRightIn [' ', '\t']))⟩

/-- All pipeline stages after newline normalization, in source order. -/
def jiraStagesAfterNormalize (s : String) : String :=
  trimTrailingWs (convertTables (convertInlineStyles (convertInlineCode
    (convertLinks (convertHeadings (convertLists (convertQuoteBlocks
      (convertCodeBlocks s))))))))

/-- Go `ConvertJiraToMarkdown`. -/
def ConvertJiraToMarkdown (s : String) : String :=
  if s = "" then "" else jiraStagesAfterNormalize (normalizeNewlines s)

/-! ### Generic lemmas about the helpers -/

theorem takeWhile_append_all {α : Type} (p : α → Bool) (l1 l2 : List α)
    (h : ∀ a ∈ l1, p a = true) :
    (l1 ++ l2).takeWhile p = l1 ++ l2.takeWhile p := by
  induction l1 with
  | nil => simp
  | cons c cs ih =>
    have hc := h c (by simp)
    simp [List.takeWhile, hc]
    exact ih (fun a ha => h a (by simp [ha]))

theorem dropWhile_append_all {α : Type} (p : α → Bool) (l1 l2 : List α)
    (h : ∀ a ∈ l1, p a = true) :
    (l1 ++ l2).dropWhile p = l2.dropWhile p := by
  induction l1 with
  | nil => simp
  | cons c cs ih =>
    have hc := h c (by simp)
    simp [List.dropWhile, hc]
    exact ih (fun a ha => h a (by simp [ha]))

theorem takeWhile_of_all {α : Type} (p : α → Bool) (l : List α)
    (h : ∀ a ∈ l, p a = true) : l.takeWhile p = l := by
  have := takeWhile_append_all p l [] h
  simpa using this

theorem dropWhile_of_all {α : Type} (p : α → Bool) (l : List α)
    (h : ∀ a ∈ l, p a = true) : l.dropWhile p = [] := by
  have := dropWhile_append_all p l [] h
  simpa using this

theorem mem_of_mem_dropWhile {α : Type} {p : α → Bool} {a : α} :
    ∀ {l : List α}, a ∈ l.dropWhile p → a ∈ l := by
  intro l
  induction l with
  | nil => intro h; simp [List.dropWhile] at h
  | cons c cs ih =>
    intro h
    by_cases hc : p c
    · simp only [List.dropWhile, hc] at h
      exact List.mem_cons_of_mem c (ih h)
    · have hc' : p c = false := by simpa using hc
      simp only [List.dropWhile, hc'] at h
      exact h

theorem mem_of_mem_trimRightIn {cut : List Char} {a : Char} {l : List Char}
    (h : a ∈ trimRightIn cut l) : a ∈ l := by
  unfold trimRightIn at h
  rw [List.mem_reverse] at h
  have := mem_of_mem_dropWhile h
  rwa [List.mem_reverse] at this

theorem mem_of_mem_trimLeftIn {cut : List Char} {a : Char} {l : List Char}
    (h : a ∈ trimLeftIn cut l) : a ∈ l := mem_of_mem_dropWhile h

theorem mem_of_mem_trimBothIn {cut : List Char} {a : Char} {l : List Char}
    (h : a ∈ trimBothIn cut l) : a ∈ l :=
  mem_of_mem_trimLeftIn (mem_of_mem_trimRightIn h)

theorem mem_of_mem_trimSpace {a : Char} {l : List Char}
    (h : a ∈ trimSpace l) : a ∈ l := by
  unfold trimSpace at h
  rw [List.mem_reverse] at h
  have h2 := mem_of_mem_dropWhile h
  rw [List.mem_reverse] at h2
  exact mem_of_mem_dropWhile h2

theorem mem_of_mem_splitOnChar {d : Char} {a : Char} :
    ∀ {x : List Char} {l : List Char}, l ∈ splitOnChar d x → a ∈ l → a ∈ x := by
  intro x
  induction x with
  | nil =>
    intro l hl ha
    simp [splitOnChar] at hl
    subst hl
    simp at ha
  | cons c cs ih =>
    intro l hl ha
    by_cases hc : (c == d) = true
    · simp only [splitOnChar, hc, if_true] at hl
      rcases List.mem_cons.mp hl with rfl | hl
      · simp at ha
      · exact List.mem_cons_of_mem c (ih hl ha)
    · have hc' : (c == d) = false := by simpa using hc
      simp only [splitOnChar, hc', Bool.false_eq_true, if_false] at hl
      rcases hrec : splitOnChar d cs with _ | ⟨l0, ls0⟩
      · rw [hrec] at hl
        simp only [List.mem_singleton] at hl
        subst hl
        rcases List.mem_cons.mp ha with rfl | ha
        · simp
        · simp at ha
      · rw [hrec] at hl
        rcases List.mem_cons.mp hl with rfl | hl
        · rcases List.mem_cons.mp ha with rfl | ha
          · simp
          · have hm : l0 ∈ splitOnChar d cs := by rw [hrec]; simp
            exact List.mem_cons_of_mem c (ih hm ha)
        · have hm : l ∈ splitOnChar d cs := by rw [hrec]; simp [hl]
          exact List.mem_cons_of_mem c (ih hm ha)

theorem mem_of_mem_joinNl {a : Char} :
    ∀ {ll : List (List Char)}, a ∈ joinNl ll → a = '\n' ∨ ∃ l ∈ ll, a ∈ l := by
  intro ll
  induction ll with
  | nil => intro h; simp [joinNl] at h
  | cons l ls ih =>
    intro h
    cases ls with
    | nil =>
      simp only [joinNl] at h
      exact Or.inr ⟨l, by simp, h⟩
    | cons l2 ls2 =>
      simp only [joinNl, List.mem_append, List.mem_cons] at h
      rcases h with h | h | h
      · exact Or.inr ⟨l, by simp, h⟩
      · exact Or.inl h
      · rcases ih h with h | ⟨l3, hl3, ha⟩
        · exact Or.inl h
        · exact Or.inr ⟨l3, by simp [List.mem_cons] at hl3 ⊢; tauto, ha⟩

theorem mem_of_mem_quoteRepl {a : Char} {body : List Char}
    (h : a ∈ quoteRepl body) :
    a = '\n' ∨ a = '>' ∨ a = ' ' ∨ a ∈ body := by
  unfold quoteRepl at h
  rcases mem_of_mem_joinNl h with h | ⟨l, hl, ha⟩
  · exact Or.inl h
  · rw [List.mem_map] at hl
    obtain ⟨l0, hl0, rfl⟩ := hl
    rcases List.mem_cons.mp ha with rfl | ha
    · simp
    · rcases List.mem_cons.mp ha with rfl | ha
      · simp
      · have h1 := mem_of_mem_trimRightIn ha
        have h2 := mem_of_mem_splitOnChar hl0 h1
        exact Or.inr (Or.inr (Or.inr (mem_of_mem_trimBothIn h2)))

theorem mem_of_mem_fenceRepl {a : Char} {lang body : List Char}
    (h : a ∈ fenceRepl (some lang) body) :
    a = '`' ∨ a = '\n' ∨ a ∈ lang ∨ a ∈ body := by
  simp only [fenceRepl] at h
  rcases List.mem_cons.mp h with rfl | h
  · exact Or.inl rfl
  rcases List.mem_cons.mp h with rfl | h
  · exact Or.inl rfl
  rcases List.mem_cons.mp h with rfl | h
  · exact Or.inl rfl
  rcases List.mem_append.mp h with h | h
  · rcases List.mem_append.mp h with h | h
    · exact Or.inr (Or.inr (Or.inl (mem_of_mem_trimSpace h)))
    · rcases List.mem_cons.mp h with rfl | h
      · exact Or.inr (Or.inl rfl)
      · exact Or.inr (Or.inr (Or.inr (mem_of_mem_trimRightIn h)))
  · rcases List.mem_cons.mp h with rfl | h
    · exact Or.inr (Or.inl rfl)
    rcases List.mem_cons.mp h with rfl | h
    · exact Or.inl rfl
    rcases List.mem_cons.mp h with rfl | h
    · exact Or.inl rfl
    rcases List.mem_cons.mp h with rfl | h
    · exact Or.inl rfl
    · simp at h

theorem mem_of_mem_fenceRepl_none {a : Char} {body : List Char}
    (h : a ∈ fenceRepl none body) :
    a = '`' ∨ a = '\n' ∨ a ∈ body := by
  simp only [fenceRepl, List.nil_append] at h
  rcases List.mem_cons.mp h with rfl | h
  · exact Or.inl rfl
  rcases List.mem_cons.mp h with rfl | h
  · exact Or.inl rfl
  rcases List.mem_cons.mp h with rfl | h
  · exact Or.inl rfl
  rcases List.mem_append.mp h with h | h
  · rcases List.mem_cons.mp h with rfl | h
    · exact Or.inr (Or.inl rfl)
    · exact Or.inr (Or.inr (mem_of_mem_trimRightIn h))
  · rcases List.mem_cons.mp h with rfl | h
    · exact Or.inr (Or.inl rfl)
    rcases List.mem_cons.mp h with rfl | h
    · exact Or.inl rfl
    rcases List.mem_cons.mp h with rfl | h
    · exact Or.inl rfl
    rcases List.mem_cons.mp h with rfl | h
    · exact Or.inl rfl
    · simp at h

/-! ### Matcher lemmas: inline styles -/

theorem tryDelim_none (d c : Char) (cs : List Char) (h : c ≠ d) :
    tryDelim d (c :: cs) = none := by
  simp [tryDelim, h]

theorem tryDelim_nil (d : Char) : tryDelim d [] = none := rfl

theorem tryDelim_some (d : Char) (int post : List Char) (hne : int ≠ [])
    (hint : ∀ c ∈ int, c ≠ d ∧ c ≠ '\n') :
    tryDelim d (d :: (int ++ d :: post)) = some (int, post) := by
  have ht : (int ++ d :: post).takeWhile (fun x => x != d && x != '\n') = int := by
    rw [takeWhile_append_all _ _ _ (by intro a ha; simp [hint a ha])]
    simp [List.takeWhile]
  have hd : (int ++ d :: post).dropWhile (fun x => x != d && x != '\n') = d :: post := by
    rw [dropWhile_append_all _ _ _ (by intro a ha; simp [hint a ha])]
    simp [List.dropWhile]
  obtain ⟨i, is, rfl⟩ := List.exists_cons_of_ne_nil hne
  simp only [List.cons_append] at ht hd
  simp [tryDelim, ht, hd]

theorem styleGo_skip (d : Char) (wl wr : List Char) :
    ∀ (l : List Char), (∀ c ∈ l, c ≠ d) → styleGo d wl wr l = l := by
  intro l
  induction l with
  | nil => intro h; rfl
  | cons c cs ih =>
    intro h
    have hn : styleStep d wl wr (c :: cs) = none := by
      simp [styleStep, tryDelim_none d c cs (h c (by simp))]
    show scanSF (styleStep d wl wr) (c :: cs).length (c :: cs) = c :: cs
    rw [List.length_cons, scanSF_cons, hn]
    exact congrArg (fun t => c :: t) (ih (fun a ha => h a (by simp [ha])))

theorem styleGo_append (d : Char) (wl wr : List Char)
    (pre int post : List Char)
    (hpre : ∀ c ∈ pre, c ≠ d) (hne : int ≠ [])
    (hint : ∀ c ∈ int, c ≠ d ∧ c ≠ '\n') :
    styleGo d wl wr (pre ++ d :: (int ++ d :: post)) =
      pre ++ wl ++ int ++ wr ++ styleGo d wl wr post := by
  induction pre with
  | nil =>
    simp only [List.nil_append]
    have hs : styleStep d wl wr (d :: (int ++ d :: post)) =
        some (wl ++ int ++ wr, post) := by
      simp [styleStep, tryDelim_some d int post hne hint]
    show scanSF (styleStep d wl wr) (d :: (int ++ d :: post)).length
      (d :: (int ++ d :: post)) = wl ++ int ++ wr ++ styleGo d wl wr post
    rw [List.length_cons, scanSF_cons, hs]
    dsimp only
    rw [scanSF_mono (styleStep d wl wr) (styleStep_length d wl wr)
      (int ++ d :: post).length post.length post
      (by simp only [List.length_append, List.length_cons]; omega) (le_refl _)]
    simp [List.append_assoc, styleGo]
  | cons c pre' ih =>
    have hn : styleStep d wl wr (c :: (pre' ++ d :: (int ++ d :: post))) = none := by
      simp [styleStep, tryDelim_none d c _ (hpre c (by simp))]
    rw [List.cons_append]
    show scanSF (styleStep d wl wr) (c :: (pre' ++ d :: (int ++ d :: post))).length
      (c :: (pre' ++ d :: (int ++ d :: post))) = _
    rw [List.length_cons, scanSF_cons, hn]
    have := ih (fun a ha => hpre a (by simp [ha]))
    simp only [List.cons_append, List.append_assoc] at this ⊢
    exact congrArg (fun t => c :: t) this

theorem boldStep_none (b : Bool) (c : Char) (cs : List Char)
    (h1 : tryDelim '*' (c :: cs) = none) (h2 : tryDelim '*' cs = none)
    (h3 : (c == '*') = false) : boldStep b (c :: cs) = none := by
  cases b <;> simp [boldStep, h1, h2, h3]

theorem boldStep_open (c : Char) (cs int rest : List Char)
    (h : tryDelim '*' (c :: cs) = some (int, rest)) :
    boldStep true (c :: cs) = some ('*' :: '*' :: (int ++ '*' :: '*' :: []), rest) := by
  simp [boldStep, h]

theorem boldStep_after (b : Bool) (c : Char) (cs int rest : List Char)
    (hc : c ≠ '*') (h : tryDelim '*' cs = some (int, rest)) :
    boldStep b (c :: cs) = some (c :: '*' :: '*' :: (int ++ '*' :: '*' :: []), rest) := by
  have h1 : tryDelim '*' (c :: cs) = none := tryDelim_none _ _ _ hc
  have h3 : (c == '*') = false := by simp [hc]
  cases b <;> simp [boldStep, h1, h3, h]

theorem boldGo_skip : ∀ (l : List Char), (∀ c ∈ l, c ≠ '*') →
    ∀ b, boldGo b l = l := by
  intro l
  induction l with
  | nil => intro h b; rfl
  | cons c cs ih =>
    intro h b
    have h1 : tryDelim '*' (c :: cs) = none := tryDelim_none _ _ _ (h c (by simp))
    have h2 : tryDelim '*' cs = none := by
      cases cs with
      | nil => rfl
      | cons c2 cs2 => exact tryDelim_none _ _ _ (h c2 (by simp))
    have h3 : (c == '*') = false := by simp [h c (by simp)]
    have hn := boldStep_none b c cs h1 h2 h3
    show scanGo boldStep (c :: cs).length b (c :: cs) = c :: cs
    rw [List.length_cons, scanGo_cons, hn]
    exact congrArg (fun t => c :: t) (ih (fun a ha => h a (by simp [ha])) (c == '\n'))

theorem boldGo_append : ∀ (pre : List Char) (b : Bool) (int post : List Char),
    (∀ c ∈ pre, c ≠ '*') → (b = true ∨ pre ≠ []) → int ≠ [] →
    (∀ c ∈ int, c ≠ '*' ∧ c ≠ '\n') →
    boldGo b (pre ++ '*' :: (int ++ '*' :: post)) =
      pre ++ '*' :: '*' :: (int ++ '*' :: '*' :: boldGo false post) := by
  intro pre
  induction pre with
  | nil =>
    intro b int post hpre hb hne hint
    have hb' : b = true := by
      rcases hb with h | h
      · exact h
      · exact absurd rfl h
    subst hb'
    simp only [List.nil_append]
    have hs := boldStep_open '*' (int ++ '*' :: post) int post
      (tryDelim_some '*' int post hne hint)
    show scanGo boldStep ('*' :: (int ++ '*' :: post)).length true
      ('*' :: (int ++ '*' :: post)) = _
    rw [List.length_cons, scanGo_cons, hs]
    dsimp only
    rw [scanGo_mono boldStep boldStep_length (int ++ '*' :: post).length
      post.length false post
      (by simp only [List.length_append, List.length_cons]; omega) (le_refl _)]
    simp [boldGo]
  | cons c pre' ih =>
    intro b int post hpre hb hne hint
    have hc : c ≠ '*' := hpre c (by simp)
    cases pre' with
    | nil =>
      simp only [List.nil_append, List.cons_append]
      have hs := boldStep_after b c ('*' :: (int ++ '*' :: post)) int post hc
        (tryDelim_some '*' int post hne hint)
      show scanGo boldStep (c :: ('*' :: (int ++ '*' :: post))).length b
        (c :: ('*' :: (int ++ '*' :: post))) = _
      rw [List.length_cons, scanGo_cons, hs]
      dsimp only
      rw [scanGo_mono boldStep boldStep_length ('*' :: (int ++ '*' :: post)).length
        post.length false post
        (by simp only [List.length_cons, List.length_append]; omega) (le_refl _)]
      simp [boldGo]
    | cons c2 pre'' =>
      have h1 : tryDelim '*' (c :: ((c2 :: pre'') ++ '*' :: (int ++ '*' :: post))) = none :=
        tryDelim_none _ _ _ hc
      have h2 : tryDelim '*' ((c2 :: pre'') ++ '*' :: (int ++ '*' :: post)) = none := by
        rw [List.cons_append]
        exact tryDelim_none _ _ _ (hpre c2 (by simp))
      have h3 : (c == '*') = false := by simp [hc]
      have hn := boldStep_none b c _ h1 h2 h3
      have ihh := ih (c == '\n') int post (fun a ha => hpre a (by simp [ha]))
        (Or.inr (by simp)) hne hint
      rw [List.cons_append]
      show scanGo boldStep (c :: ((c2 :: pre'') ++ '*' :: (int ++ '*' :: post))).length b
        (c :: ((c2 :: pre'') ++ '*' :: (int ++ '*' :: post))) = _
      rw [List.length_cons, scanGo_cons, hn]
      dsimp only
      simp only [List.cons_append]
      exact congrArg (fun t => c :: t) ihh

/-! ### Matcher lemmas: inline code -/

theorem tryInlineCode_none (c1 : Char) (cs : List Char) (h : c1 ≠ '\x7b') :
    tryInlineCode (c1 :: cs) = none := by
  cases cs with
  | nil => rfl
  | cons c2 cs2 => simp [tryInlineCode, h]

theorem tryInlineCode_some (int post : List Char) (hne : int ≠ [])
    (hint : ∀ c ∈ int, c ≠ '\x7d') :
    tryInlineCode ('\x7b' :: '\x7b' :: (int ++ '\x7d' :: '\x7d' :: post)) =
      some (int, post) := by
  have ht : (int ++ '\x7d' :: '\x7d' :: post).takeWhile (fun x => x != '\x7d') = int := by
    rw [takeWhile_append_all _ _ _ (by intro a ha; simp [hint a ha])]
    simp [List.takeWhile]
  have hd : (int ++ '\x7d' :: '\x7d' :: post).dropWhile (fun x => x != '\x7d') =
      '\x7d' :: '\x7d' :: post := by
    rw [dropWhile_append_all _ _ _ (by intro a ha; simp [hint a ha])]
    simp [List.dropWhile]
  obtain ⟨i, is, rfl⟩ := List.exists_cons_of_ne_nil hne
  simp only [List.cons_append] at ht hd
  simp [tryInlineCode, ht, hd]

theorem inlineCodeGo_append (pre int post : List Char)
    (hpre : ∀ c ∈ pre, c ≠ '\x7b') (hne : int ≠ [])
    (hint : ∀ c ∈ int, c ≠ '\x7d') :
    inlineCodeGo (pre ++ '\x7b' :: '\x7b' :: (int ++ '\x7d' :: '\x7d' :: post)) =
      pre ++ '`' :: (int ++ '`' :: inlineCodeGo post) := by
  induction pre with
  | nil =>
    simp only [List.nil_append]
    have hs : inlineCodeStep ('\x7b' :: '\x7b' :: (int ++ '\x7d' :: '\x7d' :: post)) =
        some ('`' :: int ++ ['`'], post) := by
      simp [inlineCodeStep, tryInlineCode_some int post hne hint]
    show scanSF inlineCodeStep ('\x7b' :: '\x7b' :: (int ++ '\x7d' :: '\x7d' :: post)).length
      ('\x7b' :: '\x7b' :: (int ++ '\x7d' :: '\x7d' :: post)) = _
    rw [List.length_cons, scanSF_cons, hs]
    dsimp only
    rw [scanSF_mono inlineCodeStep inlineCodeStep_length
      ('\x7b' :: (int ++ '\x7d' :: '\x7d' :: post)).length post.length post
      (by simp only [List.length_cons, List.length_append]; omega) (le_refl _)]
    simp [inlineCodeGo]
  | cons c pre' ih =>
    have hn : inlineCodeStep (c :: (pre' ++ '\x7b' :: '\x7b' :: (int ++ '\x7d' :: '\x7d' :: post))) = none := by
      simp [inlineCodeStep, tryInlineCode_none c _ (hpre c (by simp))]
    rw [List.cons_append]
    show scanSF inlineCodeStep
      (c :: (pre' ++ '\x7b' :: '\x7b' :: (int ++ '\x7d' :: '\x7d' :: post))).length
      (c :: (pre' ++ '\x7b' :: '\x7b' :: (int ++ '\x7d' :: '\x7d' :: post))) = _
    rw [List.length_cons, scanSF_cons, hn]
    exact congrArg (fun t => c :: t) (ih (fun a ha => hpre a (by simp [ha])))

/-! ### Matcher lemmas: links -/

theorem tryLink1_none (c : Char) (cs : List Char) (h : c ≠ '[') :
    tryLink1 (c :: cs) = none := by
  simp [tryLink1, h]

theorem tryLink1_some (t u post : List Char)
    (htne : t ≠ []) (ht : ∀ c ∈ t, c ≠ ']' ∧ c ≠ '|')
    (hune : u ≠ []) (hu : ∀ c ∈ u, c ≠ ']') :
    tryLink1 ('[' :: (t ++ '|' :: (u ++ ']' :: post))) = some (t, u, post) := by
  have h1 : (t ++ '|' :: (u ++ ']' :: post)).takeWhile
      (fun x => x != ']' && x != '|') = t := by
    rw [takeWhile_append_all _ _ _ (by intro a ha; simp [ht a ha])]
    simp [List.takeWhile]
  have h2 : (t ++ '|' :: (u ++ ']' :: post)).dropWhile
      (fun x => x != ']' && x != '|') = '|' :: (u ++ ']' :: post) := by
    rw [dropWhile_append_all _ _ _ (by intro a ha; simp [ht a ha])]
    simp [List.dropWhile]
  have h3 : (u ++ ']' :: post).takeWhile (fun x => x != ']') = u := by
    rw [takeWhile_append_all _ _ _ (by intro a ha; simp [hu a ha])]
    simp [List.takeWhile]
  have h4 : (u ++ ']' :: post).dropWhile (fun x => x != ']') = ']' :: post := by
    rw [dropWhile_append_all _ _ _ (by intro a ha; simp [hu a ha])]
    simp [List.dropWhile]
  obtain ⟨a, as, rfl⟩ := List.exists_cons_of_ne_nil htne
  obtain ⟨b, bs, rfl⟩ := List.exists_cons_of_ne_nil hune
  simp only [List.cons_append] at h1 h2 h3 h4
  simp [tryLink1, h1, h2, h3, h4]

theorem links1Go_append (pre t u post : List Char)
    (hpre : ∀ c ∈ pre, c ≠ '[')
    (htne : t ≠ []) (ht : ∀ c ∈ t, c ≠ ']' ∧ c ≠ '|')
    (hune : u ≠ []) (hu : ∀ c ∈ u, c ≠ ']') :
    links1Go (pre ++ '[' :: (t ++ '|' :: (u ++ ']' :: post))) =
      pre ++ '[' :: (t ++ ']' :: '(' :: (u ++ ')' :: links1Go post)) := by
  induction pre with
  | nil =>
    simp only [List.nil_append]
    have hs : link1Step ('[' :: (t ++ '|' :: (u ++ ']' :: post))) =
        some ('[' :: t ++ ']' :: '(' :: u ++ [')'], post) := by
      simp [link1Step, tryLink1_some t u post htne ht hune hu]
    show scanSF link1Step ('[' :: (t ++ '|' :: (u ++ ']' :: post))).length
      ('[' :: (t ++ '|' :: (u ++ ']' :: post))) = _
    rw [List.length_cons, scanSF_cons, hs]
    dsimp only
    rw [scanSF_mono link1Step link1Step_length
      (t ++ '|' :: (u ++ ']' :: post)).length post.length post
      (by simp only [List.length_append, List.length_cons]; omega) (le_refl _)]
    simp [links1Go]
  | cons c pre' ih =>
    have hn : link1Step (c :: (pre' ++ '[' :: (t ++ '|' :: (u ++ ']' :: post)))) = none := by
      simp [link1Step, tryLink1_none c _ (hpre c (by simp))]
    rw [List.cons_append]
    show scanSF link1Step
      (c :: (pre' ++ '[' :: (t ++ '|' :: (u ++ ']' :: post)))).length
      (c :: (pre' ++ '[' :: (t ++ '|' :: (u ++ ']' :: post)))) = _
    rw [List.length_cons, scanSF_cons, hn]
    exact congrArg (fun x => c :: x) (ih (fun a ha => hpre a (by simp [ha])))

theorem tryLink2_none (c : Char) (cs : List Char) (h : c ≠ '[') :
    tryLink2 (c :: cs) = none := by
  simp [tryLink2, h]

theorem link2Tail_comp (scheme u post : List Char)
    (hune : u ≠ []) (hu : ∀ c ∈ u, c ≠ ']') :
    link2Tail scheme (u ++ ']' :: post) = some (scheme ++ u, post) := by
  have h3 : (u ++ ']' :: post).takeWhile (fun x => x != ']') = u := by
    rw [takeWhile_append_all _ _ _ (by intro a ha; simp [hu a ha])]
    simp [List.takeWhile]
  have h4 : (u ++ ']' :: post).dropWhile (fun x => x != ']') = ']' :: post := by
    rw [dropWhile_append_all _ _ _ (by intro a ha; simp [hu a ha])]
    simp [List.dropWhile]
  obtain ⟨b, bs, rfl⟩ := List.exists_cons_of_ne_nil hune
  simp only [List.cons_append] at h3 h4
  simp [link2Tail, h3, h4]

theorem tryLink2_some_https (u post : List Char)
    (hune : u ≠ []) (hu : ∀ c ∈ u, c ≠ ']') :
    tryLink2 ('[' :: (httpsScheme ++ (u ++ ']' :: post))) =
      some (httpsScheme ++ u, post) := by
  have hpref : httpsScheme.isPrefixOf (httpsScheme ++ (u ++ ']' :: post)) = true := by
    simp [httpsScheme, List.isPrefixOf]
  have hdrop : (httpsScheme ++ (u ++ ']' :: post)).drop 8 = u ++ ']' :: post := by
    simp [httpsScheme]
  rw [tryLink2]
  simp only [beq_self_eq_true, if_true, hpref, hdrop]
  exact link2Tail_comp _ _ _ hune hu

theorem tryLink2_some_http (u post : List Char)
    (hune : u ≠ []) (hu : ∀ c ∈ u, c ≠ ']') :
    tryLink2 ('[' :: (httpScheme ++ (u ++ ']' :: post))) =
      some (httpScheme ++ u, post) := by
  have hpref1 : httpsScheme.isPrefixOf (httpScheme ++ (u ++ ']' :: post)) = false := by
    simp [httpsScheme, httpScheme, List.isPrefixOf]
  have hpref2 : httpScheme.isPrefixOf (httpScheme ++ (u ++ ']' :: post)) = true := by
    simp [httpScheme, List.isPrefixOf]
  have hdrop : (httpScheme ++ (u ++ ']' :: post)).drop 7 = u ++ ']' :: post := by
    simp [httpScheme]
  rw [tryLink2]
  simp only [beq_self_eq_true, if_true, hpref1, hpref2, hdrop, Bool.false_eq_true,
    if_false]
  exact link2Tail_comp _ _ _ hune hu

theorem links2Go_append_https (pre u post : List Char)
    (hpre : ∀ c ∈ pre, c ≠ '[')
    (hune : u ≠ []) (hu : ∀ c ∈ u, c ≠ ']') :
    links2Go (pre ++ '[' :: (httpsScheme ++ (u ++ ']' :: post))) =
      pre ++ httpsScheme ++ u ++ links2Go post := by
  induction pre with
  | nil =>
    simp only [List.nil_append]
    show scanSF tryLink2 ('[' :: (httpsScheme ++ (u ++ ']' :: post))).length
      ('[' :: (httpsScheme ++ (u ++ ']' :: post))) = _
    rw [List.length_cons, scanSF_cons, tryLink2_some_https u post hune hu]
    dsimp only
    rw [scanSF_mono tryLink2 tryLink2_step_length
      (httpsScheme ++ (u ++ ']' :: post)).length post.length post
      (by simp only [List.length_append, List.length_cons]; omega) (le_refl _)]
    simp [List.append_assoc, links2Go]
  | cons c pre' ih =>
    rw [List.cons_append]
    show scanSF tryLink2
      (c :: (pre' ++ '[' :: (httpsScheme ++ (u ++ ']' :: post)))).length
      (c :: (pre' ++ '[' :: (httpsScheme ++ (u ++ ']' :: post)))) = _
    rw [List.length_cons, scanSF_cons, tryLink2_none c _ (hpre c (by simp))]
    have := ih (fun a ha => hpre a (by simp [ha]))
    simp only [List.append_assoc] at this ⊢
    exact congrArg (fun x => c :: x) this

theorem links2Go_append_http (pre u post : List Char)
    (hpre : ∀ c ∈ pre, c ≠ '[')
    (hune : u ≠ []) (hu : ∀ c ∈ u, c ≠ ']') :
    links2Go (pre ++ '[' :: (httpScheme ++ (u ++ ']' :: post))) =
      pre ++ httpScheme ++ u ++ links2Go post := by
  induction pre with
  | nil =>
    simp only [List.nil_append]
    show scanSF tryLink2 ('[' :: (httpScheme ++ (u ++ ']' :: post))).length
      ('[' :: (httpScheme ++ (u ++ ']' :: post))) = _
    rw [List.length_cons, scanSF_cons, tryLink2_some_http u post hune hu]
    dsimp only
    rw [scanSF_mono tryLink2 tryLink2_step_length
      (httpScheme ++ (u ++ ']' :: post)).length post.length post
      (by simp only [List.length_append, List.length_cons]; omega) (le_refl _)]
    simp [List.append_assoc, links2Go]
  | cons c pre' ih =>
    rw [List.cons_append]
    show scanSF tryLink2
      (c :: (pre' ++ '[' :: (httpScheme ++ (u ++ ']' :: post)))).length
      (c :: (pre' ++ '[' :: (httpScheme ++ (u ++ ']' :: post)))) = _
    rw [List.length_cons, scanSF_cons, tryLink2_none c _ (hpre c (by simp))]
    have := ih (fun a ha => hpre a (by simp [ha]))
    simp only [List.append_assoc] at this ⊢
    exact congrArg (fun x => c :: x) this


/-! ### Matcher lemmas: code blocks -/

theorem mem_of_mem_skipOneNl {a : Char} {l : List Char}
    (h : a ∈ skipOneNl l) : a ∈ l := by
  cases l with
  | nil => simpa [skipOneNl] using h
  | cons c cs =>
    by_cases hc : c = '\n'
    · simp only [skipOneNl, if_pos hc] at h
      exact List.mem_cons_of_mem _ h
    · simp only [skipOneNl, if_neg hc] at h
      exact h

theorem codeOpenParse_none (c : Char) (cs : List Char) (h : c ≠ '\x7b') :
    codeOpenParse (c :: cs) = none := by
  have h1 : codeLangOpen.isPrefixOf (c :: cs) = false := by
    simp [codeLangOpen, List.isPrefixOf, Ne.symm h]
  have h2 : codeTag.isPrefixOf (c :: cs) = false := by
    simp [codeTag, List.isPrefixOf, Ne.symm h]
  simp [codeOpenParse, h1, h2]

theorem codeOpenParse_lang (lang rest : List Char) (hne : lang ≠ [])
    (hlang : ∀ c ∈ lang, c ≠ '\x7d' ∧ c ≠ '\n') :
    codeOpenParse (codeLangOpen ++ (lang ++ '\x7d' :: rest)) =
      some (some lang, rest) := by
  have hpref : codeLangOpen.isPrefixOf (codeLangOpen ++ (lang ++ '\x7d' :: rest)) = true := by
    simp [codeLangOpen, List.isPrefixOf]
  have hdrop : (codeLangOpen ++ (lang ++ '\x7d' :: rest)).drop 6 = lang ++ '\x7d' :: rest := by
    simp [codeLangOpen]
  have ht : (lang ++ '\x7d' :: rest).takeWhile (fun x => x != '\x7d' && x != '\n') = lang := by
    rw [takeWhile_append_all _ _ _ (by intro a ha; simp [hlang a ha])]
    simp [List.takeWhile]
  have hd : (lang ++ '\x7d' :: rest).dropWhile (fun x => x != '\x7d' && x != '\n') =
      '\x7d' :: rest := by
    rw [dropWhile_append_all _ _ _ (by intro a ha; simp [hlang a ha])]
    simp [List.dropWhile]
  simp only [codeOpenParse, hpref, if_true, hdrop]
  obtain ⟨i, is, rfl⟩ := List.exists_cons_of_ne_nil hne
  simp only [List.cons_append] at ht hd
  simp [ht, hd]

theorem codeOpenParse_plain (rest : List Char) :
    codeOpenParse (codeTag ++ rest) = some (none, rest) := by
  have h1 : codeLangOpen.isPrefixOf (codeTag ++ rest) = false := by
    simp +decide [codeLangOpen, codeTag, List.isPrefixOf]
  have h2 : codeTag.isPrefixOf (codeTag ++ rest) = true := by
    simp [codeTag, List.isPrefixOf]
  have h3 : (codeTag ++ rest).drop 6 = rest := by simp [codeTag]
  simp [codeOpenParse, h1, h2, h3]

theorem findCodeCloser_boundary :
    ∀ (body : List Char), (∀ c ∈ body, c ≠ '\x7b') → ∀ (post : List Char),
    findCodeCloser (body ++ '\n' :: (codeTag ++ post)) = some (body, post) := by
  intro body
  induction body with
  | nil =>
    intro h post
    have h1 : ('\n' :: codeTag).isPrefixOf ('\n' :: (codeTag ++ post)) = true := by
      simp [codeTag, List.isPrefixOf]
    simp only [List.nil_append]
    rw [findCodeCloser]
    simp only [h1, if_true]
    simp [codeTag]
  | cons c body' ih =>
    intro h post
    have hc : c ≠ '\x7b' := h c (by simp)
    have h2 : codeTag.isPrefixOf (c :: (body' ++ '\n' :: (codeTag ++ post))) = false := by
      simp [codeTag, List.isPrefixOf, Ne.symm hc]
    have h1 : ('\n' :: codeTag).isPrefixOf (c :: (body' ++ '\n' :: (codeTag ++ post))) = false := by
      cases body' with
      | nil =>
        simp only [List.nil_append]
        simp +decide [codeTag, List.isPrefixOf]
      | cons c2 body'' =>
        have hc2 : c2 ≠ '\x7b' := h c2 (by simp)
        simp [codeTag, List.isPrefixOf, Ne.symm hc2]
    rw [List.cons_append, findCodeCloser]
    simp only [h1, h2, Bool.false_eq_true, if_false]
    rw [ih (fun a ha => h a (by simp [ha])) post]

theorem findCodeCloser_none :
    ∀ (l : List Char), (∀ c ∈ l, c ≠ '\x7b') → findCodeCloser l = none := by
  intro l
  induction l with
  | nil => intro h; rfl
  | cons c cs ih =>
    intro h
    have hc : c ≠ '\x7b' := h c (by simp)
    have h2 : codeTag.isPrefixOf (c :: cs) = false := by
      simp [codeTag, List.isPrefixOf, Ne.symm hc]
    have h1 : ('\n' :: codeTag).isPrefixOf (c :: cs) = false := by
      cases cs with
      | nil => simp [codeTag, List.isPrefixOf]
      | cons c2 cs2 =>
        have hc2 : c2 ≠ '\x7b' := h c2 (by simp)
        simp [codeTag, List.isPrefixOf, Ne.symm hc2]
    rw [findCodeCloser]
    simp only [h1, h2, Bool.false_eq_true, if_false]
    rw [ih (fun a ha => h a (by simp [ha]))]

theorem findCodeMatch_append (pre : List Char) (s : List Char)
    (hpre : ∀ c ∈ pre, c ≠ '\x7b') :
    findCodeMatch (pre ++ s) =
      (findCodeMatch s).map (fun x => (pre ++ x.1, x.2)) := by
  induction pre with
  | nil =>
    cases hm : findCodeMatch s <;> simp [hm]
  | cons c pre' ih =>
    rw [List.cons_append, findCodeMatch, codeOpenParse_none c _ (hpre c (by simp))]
    rw [ih (fun a ha => hpre a (by simp [ha]))]
    cases hm : findCodeMatch s <;> simp [consPre, hm]

theorem findCodeMatch_none (l : List Char) (h : ∀ c ∈ l, c ≠ '\x7b') :
    findCodeMatch l = none := by
  induction l with
  | nil => rfl
  | cons c cs ih =>
    rw [findCodeMatch, codeOpenParse_none c _ (h c (by simp))]
    rw [ih (fun a ha => h a (by simp [ha]))]
    rfl

theorem convertCodeBlocksAux_eq_self (n : Nat) (s : List Char)
    (h : findCodeMatch s = none) : convertCodeBlocksAux n s = s := by
  cases n with
  | zero => rfl
  | succ n => rw [convertCodeBlocksAux, h]

theorem findCodeMatch_region_lang (pre lang body post : List Char)
    (hpre : ∀ c ∈ pre, c ≠ '\x7b') (hbody : ∀ c ∈ body, c ≠ '\x7b')
    (hlne : lang ≠ []) (hlang : ∀ c ∈ lang, c ≠ '\x7d' ∧ c ≠ '\n') :
    findCodeMatch (pre ++ (codeLangOpen ++ (lang ++ '\x7d' :: '\n' :: (body ++ '\n' :: (codeTag ++ post))))) =
      some (pre, some lang, body, post) := by
  have hopen := codeOpenParse_lang lang ('\n' :: (body ++ '\n' :: (codeTag ++ post))) hlne hlang
  have hstep : findCodeMatch (codeLangOpen ++ (lang ++ '\x7d' :: '\n' :: (body ++ '\n' :: (codeTag ++ post)))) =
      some ([], some lang, body, post) := by
    rw [show codeLangOpen ++ (lang ++ '\x7d' :: '\n' :: (body ++ '\n' :: (codeTag ++ post))) =
      '\x7b' :: ('c' :: 'o' :: 'd' :: 'e' :: ':' :: (lang ++ '\x7d' :: '\n' :: (body ++ '\n' :: (codeTag ++ post)))) from by simp [codeLangOpen]]
    rw [findCodeMatch]
    rw [show ('\x7b' :: ('c' :: 'o' :: 'd' :: 'e' :: ':' :: (lang ++ '\x7d' :: '\n' :: (body ++ '\n' :: (codeTag ++ post))))) =
      codeLangOpen ++ (lang ++ ('\x7d' :: '\n' :: (body ++ '\n' :: (codeTag ++ post)))) from by simp [codeLangOpen]]
    rw [show lang ++ ('\x7d' :: '\n' :: (body ++ '\n' :: (codeTag ++ post))) =
      lang ++ '\x7d' :: ('\n' :: (body ++ '\n' :: (codeTag ++ post))) from by simp]
    rw [codeOpenParse_lang lang _ hlne hlang]
    dsimp only
    rw [show skipOneNl ('\n' :: (body ++ '\n' :: (codeTag ++ post))) =
      body ++ '\n' :: (codeTag ++ post) from by simp [skipOneNl]]
    rw [findCodeCloser_boundary body hbody post]
  rw [findCodeMatch_append pre _ hpre, hstep]
  simp

theorem findCodeMatch_region_plain (pre body post : List Char)
    (hpre : ∀ c ∈ pre, c ≠ '\x7b') (hbody : ∀ c ∈ body, c ≠ '\x7b') :
    findCodeMatch (pre ++ (codeTag ++ ('\n' :: (body ++ '\n' :: (codeTag ++ post))))) =
      some (pre, none, body, post) := by
  have hstep : findCodeMatch (codeTag ++ ('\n' :: (body ++ '\n' :: (codeTag ++ post)))) =
      some ([], none, body, post) := by
    rw [show codeTag ++ ('\n' :: (body ++ '\n' :: (codeTag ++ post))) =
      '\x7b' :: ('c' :: 'o' :: 'd' :: 'e' :: '\x7d' :: ('\n' :: (body ++ '\n' :: (codeTag ++ post)))) from by simp [codeTag]]
    rw [findCodeMatch]
    rw [show ('\x7b' :: ('c' :: 'o' :: 'd' :: 'e' :: '\x7d' :: ('\n' :: (body ++ '\n' :: (codeTag ++ post))))) =
      codeTag ++ ('\n' :: (body ++ '\n' :: (codeTag ++ post))) from by simp [codeTag]]
    rw [codeOpenParse_plain]
    dsimp only
    rw [show skipOneNl ('\n' :: (body ++ '\n' :: (codeTag ++ post))) =
      body ++ '\n' :: (codeTag ++ post) from by simp [skipOneNl]]
    rw [findCodeCloser_boundary body hbody post]
  rw [findCodeMatch_append pre _ hpre, hstep]
  simp

theorem findCodeMatch_unterminated (pre post : List Char)
    (hpre : ∀ c ∈ pre, c ≠ '\x7b') (hpost : ∀ c ∈ post, c ≠ '\x7b') :
    findCodeMatch (pre ++ (codeTag ++ post)) = none := by
  have hstep : findCodeMatch (codeTag ++ post) = none := by
    rw [show codeTag ++ post = '\x7b' :: ('c' :: 'o' :: 'd' :: 'e' :: '\x7d' :: post) from by
      simp [codeTag]]
    rw [findCodeMatch]
    rw [show ('\x7b' :: ('c' :: 'o' :: 'd' :: 'e' :: '\x7d' :: post)) = codeTag ++ post from by
      simp [codeTag]]
    rw [codeOpenParse_plain]
    dsimp only
    have hcl : findCodeCloser (skipOneNl post) = none := by
      apply findCodeCloser_none
      intro a ha
      exact hpost a (mem_of_mem_skipOneNl ha)
    rw [hcl]
    dsimp only
    have hrest : findCodeMatch ('c' :: 'o' :: 'd' :: 'e' :: '\x7d' :: post) = none := by
      apply findCodeMatch_none
      intro a ha
      simp only [List.mem_cons] at ha
      rcases ha with rfl | rfl | rfl | rfl | rfl | ha
      · decide
      · decide
      · decide
      · decide
      · decide
      · exact hpost a ha
    rw [hrest]
    rfl
  rw [findCodeMatch_append pre _ hpre, hstep]
  rfl

/-! ### Matcher lemmas: quote blocks -/

theorem findQuoteCloser_boundary :
    ∀ (body : List Char), (∀ c ∈ body, c ≠ '\x7b') → ∀ (post : List Char),
    findQuoteCloser (body ++ '\n' :: (quoteTag ++ post)) = some (body, post) := by
  intro body
  induction body with
  | nil =>
    intro h post
    have h1 : ('\n' :: quoteTag).isPrefixOf ('\n' :: (quoteTag ++ post)) = true := by
      simp [quoteTag, List.isPrefixOf]
    simp only [List.nil_append]
    rw [findQuoteCloser]
    simp only [h1, if_true]
    simp [quoteTag]
  | cons c body' ih =>
    intro h post
    have hc : c ≠ '\x7b' := h c (by simp)
    have h2 : quoteTag.isPrefixOf (c :: (body' ++ '\n' :: (quoteTag ++ post))) = false := by
      simp [quoteTag, List.isPrefixOf, Ne.symm hc]
    have h1 : ('\n' :: quoteTag).isPrefixOf (c :: (body' ++ '\n' :: (quoteTag ++ post))) = false := by
      cases body' with
      | nil =>
        simp only [List.nil_append]
        simp +decide [quoteTag, List.isPrefixOf]
      | cons c2 body'' =>
        have hc2 : c2 ≠ '\x7b' := h c2 (by simp)
        simp [quoteTag, List.isPrefixOf, Ne.symm hc2]
    rw [List.cons_append, findQuoteCloser]
    simp only [h1, h2, Bool.false_eq_true, if_false]
    rw [ih (fun a ha => h a (by simp [ha])) post]

theorem findQuoteCloser_none :
    ∀ (l : List Char), (∀ c ∈ l, c ≠ '\x7b') → findQuoteCloser l = none := by
  intro l
  induction l with
  | nil => intro h; rfl
  | cons c cs ih =>
    intro h
    have hc : c ≠ '\x7b' := h c (by simp)
    have h2 : quoteTag.isPrefixOf (c :: cs) = false := by
      simp [quoteTag, List.isPrefixOf, Ne.symm hc]
    have h1 : ('\n' :: quoteTag).isPrefixOf (c :: cs) = false := by
      cases cs with
      | nil => simp [quoteTag, List.isPrefixOf]
      | cons c2 cs2 =>
        have hc2 : c2 ≠ '\x7b' := h c2 (by simp)
        simp [quoteTag, List.isPrefixOf, Ne.symm hc2]
    rw [findQuoteCloser]
    simp only [h1, h2, Bool.false_eq_true, if_false]
    rw [ih (fun a ha => h a (by simp [ha]))]

theorem findQuoteMatch_append (pre : List Char) (s : List Char)
    (hpre : ∀ c ∈ pre, c ≠ '\x7b') :
    findQuoteMatch (pre ++ s) =
      (findQuoteMatch s).map (fun x => (pre ++ x.1, x.2)) := by
  induction pre with
  | nil =>
    cases hm : findQuoteMatch s <;> simp [hm]
  | cons c pre' ih =>
    have h1 : quoteTag.isPrefixOf (c :: (pre' ++ s)) = false := by
      simp [quoteTag, List.isPrefixOf, Ne.symm (hpre c (by simp))]
    rw [List.cons_append, findQuoteMatch]
    simp only [h1, Bool.false_eq_true, if_false]
    rw [ih (fun a ha => hpre a (by simp [ha]))]
    cases hm : findQuoteMatch s <;> simp [consPreQ, hm]

theorem findQuoteMatch_none (l : List Char) (h : ∀ c ∈ l, c ≠ '\x7b') :
    findQuoteMatch l = none := by
  induction l with
  | nil => rfl
  | cons c cs ih =>
    have h1 : quoteTag.isPrefixOf (c :: cs) = false := by
      simp [quoteTag, List.isPrefixOf, Ne.symm (h c (by simp))]
    rw [findQuoteMatch]
    simp only [h1, Bool.false_eq_true, if_false]
    rw [ih (fun a ha => h a (by simp [ha]))]
    rfl

theorem convertQuoteBlocksAux_eq_self (n : Nat) (s : List Char)
    (h : findQuoteMatch s = none) : convertQuoteBlocksAux n s = s := by
  cases n with
  | zero => rfl
  | succ n => rw [convertQuoteBlocksAux, h]

theorem findQuoteMatch_region (pre body post : List Char)
    (hpre : ∀ c ∈ pre, c ≠ '\x7b') (hbody : ∀ c ∈ body, c ≠ '\x7b') :
    findQuoteMatch (pre ++ (quoteTag ++ ('\n' :: (body ++ '\n' :: (quoteTag ++ post))))) =
      some (pre, body, post) := by
  have hstep : findQuoteMatch (quoteTag ++ ('\n' :: (body ++ '\n' :: (quoteTag ++ post)))) =
      some ([], body, post) := by
    rw [show quoteTag ++ ('\n' :: (body ++ '\n' :: (quoteTag ++ post))) =
      '\x7b' :: ('q' :: 'u' :: 'o' :: 't' :: 'e' :: '\x7d' :: ('\n' :: (body ++ '\n' :: (quoteTag ++ post)))) from by simp [quoteTag]]
    rw [findQuoteMatch]
    have hp : quoteTag.isPrefixOf ('\x7b' :: ('q' :: 'u' :: 'o' :: 't' :: 'e' :: '\x7d' :: ('\n' :: (body ++ '\n' :: (quoteTag ++ post))))) = true := by
      simp [quoteTag, List.isPrefixOf]
    simp only [hp, if_true, List.drop_succ_cons, List.drop_zero]
    rw [show skipOneNl ('\n' :: (body ++ '\n' :: (quoteTag ++ post))) =
      body ++ '\n' :: (quoteTag ++ post) from by simp [skipOneNl]]
    rw [findQuoteCloser_boundary body hbody post]
  rw [findQuoteMatch_append pre _ hpre, hstep]
  simp

theorem findQuoteMatch_unterminated (pre post : List Char)
    (hpre : ∀ c ∈ pre, c ≠ '\x7b') (hpost : ∀ c ∈ post, c ≠ '\x7b') :
    findQuoteMatch (pre ++ (quoteTag ++ post)) = none := by
  have hstep : findQuoteMatch (quoteTag ++ post) = none := by
    rw [show quoteTag ++ post = '\x7b' :: ('q' :: 'u' :: 'o' :: 't' :: 'e' :: '\x7d' :: post) from by
      simp [quoteTag]]
    rw [findQuoteMatch]
    have hp : quoteTag.isPrefixOf ('\x7b' :: ('q' :: 'u' :: 'o' :: 't' :: 'e' :: '\x7d' :: post)) = true := by
      simp [quoteTag, List.isPrefixOf]
    simp only [hp, if_true, List.drop_succ_cons, List.drop_zero]
    have hcl : findQuoteCloser (skipOneNl post) = none := by
      apply findQuoteCloser_none
      intro a ha
      exact hpost a (mem_of_mem_skipOneNl ha)
    rw [hcl]
    dsimp only
    have hrest : findQuoteMatch ('q' :: 'u' :: 'o' :: 't' :: 'e' :: '\x7d' :: post) = none := by
      apply findQuoteMatch_none
      intro a ha
      simp only [List.mem_cons] at ha
      rcases ha with rfl | rfl | rfl | rfl | rfl | rfl | ha
      · decide
      · decide
      · decide
      · decide
      · decide
      · decide
      · exact hpost a ha
    rw [hrest]
    rfl
  rw [findQuoteMatch_append pre _ hpre, hstep]
  rfl


/-! ### Newline-normalization refinement -/

theorem normalizeCr_cons (c : Char) (l : List Char) :
    normalizeCr (c :: l) = (if c = '\r' then '\n' else c) :: normalizeCr l := by
  simp [normalizeCr]

theorem normalize_eq_spec : ∀ (l : List Char),
    normalizeCr (normalizeCrlf l) = specNewlineNormalize l
  | [] => rfl
  | [c] => by
    simp only [normalizeCrlf, specNewlineNormalize]
    rw [normalizeCr_cons]
    rfl
  | c1 :: c2 :: cs => by
    by_cases h12 : c1 = '\r' ∧ c2 = '\n'
    · simp only [normalizeCrlf, specNewlineNormalize, if_pos h12]
      rw [normalizeCr_cons, if_neg (by decide : ¬('\n' : Char) = '\r')]
      rw [normalize_eq_spec cs]
    · simp only [normalizeCrlf, specNewlineNormalize, if_neg h12]
      rw [normalizeCr_cons, normalize_eq_spec (c2 :: cs)]
termination_by l => l.length
decreasing_by
  all_goals simp
  all_goals omega

/-! ### Whole-line lemmas for lists and headings -/

theorem marker_not_spacetab {m : Char} (hm : m = '*' ∨ m = '#') :
    (m == ' ' || m == '\t') = false := by
  rcases hm with rfl | rfl <;> decide

theorem marker_is_marker {m : Char} (hm : m = '*' ∨ m = '#') :
    (m == '*' || m == '#') = true := by
  rcases hm with rfl | rfl <;> decide

theorem regexSpace_elim {c : Char} (h : regexSpace c = true) :
    c = ' ' ∨ c = '\t' ∨ c = '\n' ∨ c = '\x0c' ∨ c = '\r' := by
  simp [regexSpace] at h
  tauto

theorem regexSpace_not_marker {c : Char} (h : regexSpace c = true) :
    (c == '*' || c == '#') = false := by
  rcases regexSpace_elim h with rfl | rfl | rfl | rfl | rfl <;> decide

theorem tryList_some (ws1 : List Char) (m : Char) (ms ws2 content : List Char)
    (hws1 : ∀ c ∈ ws1, c = ' ' ∨ c = '\t')
    (hm : m = '*' ∨ m = '#') (hms : ∀ c ∈ ms, c = '*' ∨ c = '#')
    (hws2ne : ws2 ≠ []) (hws2 : ∀ c ∈ ws2, regexSpace c = true)
    (hchead : ∀ c, content.head? = some c → regexSpace c = false)
    (hcnl : ∀ c ∈ content, c ≠ '\n') :
    tryList (ws1 ++ ((m :: ms) ++ (ws2 ++ content))) =
      some (List.replicate (2 * ms.length) ' ' ++
        (if m == '*' then '-' :: ' ' :: content else '1' :: '.' :: ' ' :: content), []) := by
  obtain ⟨w, ws2', rfl⟩ := List.exists_cons_of_ne_nil hws2ne
  have e0 : (ws1 ++ ((m :: ms) ++ ((w :: ws2') ++ content))).dropWhile
      (fun c => c == ' ' || c == '\t') = (m :: ms) ++ ((w :: ws2') ++ content) := by
    rw [dropWhile_append_all _ _ _
      (by intro a ha; rcases hws1 a ha with rfl | rfl <;> simp)]
    simp [List.dropWhile, marker_not_spacetab hm]
  have e1 : ((m :: ms) ++ ((w :: ws2') ++ content)).takeWhile
      (fun c => c == '*' || c == '#') = m :: ms := by
    rw [takeWhile_append_all _ _ _ (by
      intro a ha
      rcases List.mem_cons.mp ha with rfl | ha
      · exact marker_is_marker hm
      · exact marker_is_marker (hms a ha))]
    simp [List.takeWhile, regexSpace_not_marker (hws2 w (by simp))]
  have e2 : ((m :: ms) ++ ((w :: ws2') ++ content)).dropWhile
      (fun c => c == '*' || c == '#') = (w :: ws2') ++ content := by
    rw [dropWhile_append_all _ _ _ (by
      intro a ha
      rcases List.mem_cons.mp ha with rfl | ha
      · exact marker_is_marker hm
      · exact marker_is_marker (hms a ha))]
    simp [List.dropWhile, regexSpace_not_marker (hws2 w (by simp))]
  have e3 : ((w :: ws2') ++ content).takeWhile regexSpace = w :: ws2' := by
    rw [takeWhile_append_all _ _ _ hws2]
    cases content with
    | nil => simp
    | cons a t => simp [List.takeWhile, hchead a rfl]
  have e4 : ((w :: ws2') ++ content).dropWhile regexSpace = content := by
    rw [dropWhile_append_all _ _ _ hws2]
    cases content with
    | nil => simp
    | cons a t => simp [List.dropWhile, hchead a rfl]
  have e5 : content.takeWhile (fun c => c != '\n') = content :=
    takeWhile_of_all _ _ (by intro a ha; simp [hcnl a ha])
  have e6 : content.dropWhile (fun c => c != '\n') = [] :=
    dropWhile_of_all _ _ (by intro a ha; simp [hcnl a ha])
  simp only [tryList, List.cons_append] at *
  simp [e0, e1, e2, e3, e4, e5, e6]

theorem listsGo_whole (l out : List Char) (hl : l ≠ [])
    (h : tryList l = some (out, [])) : listsGo true l = out := by
  obtain ⟨c, cs, rfl⟩ := List.exists_cons_of_ne_nil hl
  have hs : listsStep true (c :: cs) = some (out, []) := by
    simp [listsStep, h]
  show scanGo listsStep (c :: cs).length true (c :: cs) = out
  rw [List.length_cons, scanGo_cons, hs]
  dsimp only
  rw [scanGo_nil]
  simp

theorem tryHeading_some (d : Char) (ws title : List Char)
    (hd : '1' ≤ d ∧ d ≤ '6')
    (hws : ∀ c ∈ ws, regexSpace c = true)
    (hthead : ∀ c, title.head? = some c → regexSpace c = false)
    (htnl : ∀ c ∈ title, c ≠ '\n') :
    tryHeading ('h' :: d :: '.' :: (ws ++ title)) =
      some (List.replicate (d.toNat - '0'.toNat) '#' ++ ' ' :: title, []) := by
  have e1 : (ws ++ title).dropWhile regexSpace = title := by
    rw [dropWhile_append_all _ _ _ hws]
    cases title with
    | nil => simp
    | cons a t => simp [List.dropWhile, hthead a rfl]
  have e2 : title.takeWhile (fun c => c != '\n') = title :=
    takeWhile_of_all _ _ (by intro a ha; simp [htnl a ha])
  have e3 : title.dropWhile (fun c => c != '\n') = [] :=
    dropWhile_of_all _ _ (by intro a ha; simp [htnl a ha])
  simp [tryHeading, hd, e1, e2, e3]

theorem headingsGo_whole (l out : List Char) (hl : l ≠ [])
    (h : tryHeading l = some (out, [])) : headingsGo true l = out := by
  obtain ⟨c, cs, rfl⟩ := List.exists_cons_of_ne_nil hl
  have hs : headingsStep true (c :: cs) = some (out, []) := by
    simp [headingsStep, h]
  show scanGo headingsStep (c :: cs).length true (c :: cs) = out
  rw [List.length_cons, scanGo_cons, hs]
  dsimp only
  rw [scanGo_nil]
  simp

theorem headingsGo_step_false (c : Char) (cs : List Char) :
    headingsGo false (c :: cs) = c :: headingsGo (c == '\n') cs := by
  have hn : headingsStep false (c :: cs) = none := by
    simp [headingsStep]
  show scanGo headingsStep (c :: cs).length false (c :: cs) = _
  rw [List.length_cons, scanGo_cons, hn]
  rfl

theorem headingsGo_false_noNl : ∀ (l : List Char), (∀ c ∈ l, c ≠ '\n') →
    headingsGo false l = l := by
  intro l
  induction l with
  | nil => intro h; rfl
  | cons c cs ih =>
    intro h
    rw [headingsGo_step_false]
    have hc : (c == '\n') = false := by simp [h c (by simp)]
    rw [hc, ih (fun a ha => h a (by simp [ha]))]

theorem headingsGo_line_unchanged (l : List Char)
    (hnl : ∀ c ∈ l, c ≠ '\n') (hno : tryHeading l = none) :
    headingsGo true l = l := by
  cases l with
  | nil => rfl
  | cons c cs =>
    have hn : headingsStep true (c :: cs) = none := by
      simp [headingsStep, hno]
    show scanGo headingsStep (c :: cs).length true (c :: cs) = _
    rw [List.length_cons, scanGo_cons, hn]
    have hc : (c == '\n') = false := by simp [hnl c (by simp)]
    rw [hc]
    exact congrArg (fun t => c :: t)
      (headingsGo_false_noNl cs (fun a ha => hnl a (by simp [ha])))

/-! ### Table-stage lemmas -/

theorem convertTablesGoF_cons (n : Nat) (l : List Char)
    (ls : List (List Char)) :
    convertTablesGoF (n + 1) (l :: ls) =
      if pipeStart l then
        convertTableBlockL ((l :: ls).takeWhile pipeStart) ++
          convertTablesGoF n ((l :: ls).dropWhile pipeStart)
      else l :: convertTablesGoF n ls := rfl

theorem convertTablesGoF_mono :
    ∀ n m ls, ls.length ≤ n → ls.length ≤ m →
      convertTablesGoF n ls = convertTablesGoF m ls := by
  intro n
  induction n with
  | zero =>
    intro m ls h1 h2
    have : ls = [] := List.eq_nil_of_length_eq_zero (by omega)
    subst this
    cases m <;> rfl
  | succ n ih =>
    intro m ls h1 h2
    cases ls with
    | nil => cases m <;> rfl
    | cons l ls' =>
      cases m with
      | zero => simp at h2
      | succ m =>
        rw [convertTablesGoF_cons, convertTablesGoF_cons]
        simp only [List.length_cons] at h1 h2
        by_cases hp : pipeStart l = true
        · rw [if_pos hp, if_pos hp]
          have hd : ((l :: ls').dropWhile pipeStart).length ≤ ls'.length := by
            rw [List.dropWhile_cons_of_pos hp]
            exact length_dropWhile_le _ _
          rw [ih m _ (by omega) (by omega)]
        · rw [if_neg hp, if_neg hp]
          rw [ih m ls' (by omega) (by omega)]

theorem convertTablesGoL_group (xs bs : List (List Char)) (y : List Char)
    (zs : List (List Char))
    (hxs : ∀ l ∈ xs, pipeStart l = false) (hbs : bs ≠ [])
    (hbs2 : ∀ l ∈ bs, pipeStart l = true) (hy : pipeStart y = false) :
    convertTablesGoL (xs ++ (bs ++ y :: zs)) =
      xs ++ (convertTableBlockL bs ++ y :: convertTablesGoL zs) := by
  induction xs with
  | nil =>
    obtain ⟨b, bs', rfl⟩ := List.exists_cons_of_ne_nil hbs
    simp only [List.nil_append, List.cons_append]
    show convertTablesGoF (b :: (bs' ++ y :: zs)).length (b :: (bs' ++ y :: zs)) = _
    rw [List.length_cons, convertTablesGoF_cons, if_pos (hbs2 b (by simp))]
    have e1 : (b :: (bs' ++ y :: zs)).takeWhile pipeStart = b :: bs' := by
      rw [show b :: (bs' ++ y :: zs) = (b :: bs') ++ (y :: zs) from by simp]
      rw [takeWhile_append_all _ _ _ hbs2]
      simp [List.takeWhile, hy]
    have e2 : (b :: (bs' ++ y :: zs)).dropWhile pipeStart = y :: zs := by
      rw [show b :: (bs' ++ y :: zs) = (b :: bs') ++ (y :: zs) from by simp]
      rw [dropWhile_append_all _ _ _ hbs2]
      simp [List.dropWhile, hy]
    rw [e1, e2]
    rw [convertTablesGoF_mono (bs' ++ y :: zs).length (y :: zs).length (y :: zs)
      (by simp only [List.length_append, List.length_cons]; omega) (le_refl _)]
    rw [List.length_cons, convertTablesGoF_cons, if_neg (by simp [hy])]
    rfl
  | cons x xs' ih =>
    rw [List.cons_append]
    show convertTablesGoF (x :: (xs' ++ (bs ++ y :: zs))).length
      (x :: (xs' ++ (bs ++ y :: zs))) = _
    rw [List.length_cons, convertTablesGoF_cons,
      if_neg (by simp [hxs x (by simp)])]
    have hm : convertTablesGoF (xs' ++ (bs ++ y :: zs)).length
        (xs' ++ (bs ++ y :: zs)) = convertTablesGoL (xs' ++ (bs ++ y :: zs)) := rfl
    rw [hm, ih (fun a ha => hxs a (by simp [ha]))]
    simp

theorem convertTableBlockL_header (hl : List Char) (bls : List (List Char))
    (hh : containsDoublePipe (trimSpace hl) = true)
    (hne : parseJiraTableRowL hl true ≠ []) :
    convertTableBlockL (hl :: bls) =
      renderRow (parseJiraTableRowL hl true) ::
      renderRow (List.replicate (parseJiraTableRowL hl true).length
        ('-' :: '-' :: '-' :: [])) ::
      (bls.filter (fun ln => !(trimSpace ln).isEmpty)).map
        (fun ln => renderRow (parseJiraTableRowL ln false)) := by
  have hne' : (parseJiraTableRowL hl true).isEmpty = false := by
    simpa [List.isEmpty_iff] using hne
  simp [convertTableBlockL, hh, hne', List.map_map, Function.comp]

theorem convertTableBlockL_noheader (hl : List Char) (bls : List (List Char))
    (hh : containsDoublePipe (trimSpace hl) = false) :
    convertTableBlockL (hl :: bls) =
      ((hl :: bls).filter (fun ln => !(trimSpace ln).isEmpty)).map
        (fun ln => renderRow (parseJiraTableRowL ln false)) := by
  simp [convertTableBlockL, hh, List.map_map, Function.comp]


/-! ### Fixpoint lemmas for the block-replacement loops -/

theorem convertCodeBlocksAux_region_lang (n : Nat) (pre lang body post : List Char)
    (hpre : ∀ c ∈ pre, c ≠ '\x7b') (hbody : ∀ c ∈ body, c ≠ '\x7b')
    (hpost : ∀ c ∈ post, c ≠ '\x7b') (hlne : lang ≠ [])
    (hlang : ∀ c ∈ lang, c ≠ '\x7d' ∧ c ≠ '\n' ∧ c ≠ '\x7b') :
    convertCodeBlocksAux (n + 1)
      (pre ++ (codeLangOpen ++ (lang ++ '\x7d' :: '\n' :: (body ++ '\n' :: (codeTag ++ post))))) =
      pre ++ (fenceRepl (some lang) body ++ post) := by
  rw [convertCodeBlocksAux,
    findCodeMatch_region_lang pre lang body post hpre hbody hlne
      (fun c hc => ⟨(hlang c hc).1, (hlang c hc).2.1⟩)]
  dsimp only
  have hnone : findCodeMatch (pre ++ fenceRepl (some lang) body ++ post) = none := by
    apply findCodeMatch_none
    intro c hc
    simp only [List.append_assoc, List.mem_append] at hc
    rcases hc with hc | hc | hc
    · exact hpre c hc
    · rcases mem_of_mem_fenceRepl hc with rfl | rfl | hcl | hcb
      · decide
      · decide
      · exact (hlang c hcl).2.2
      · exact hbody c hcb
    · exact hpost c hc
  rw [convertCodeBlocksAux_eq_self n _ hnone]
  simp

theorem convertCodeBlocksAux_region_plain (n : Nat) (pre body post : List Char)
    (hpre : ∀ c ∈ pre, c ≠ '\x7b') (hbody : ∀ c ∈ body, c ≠ '\x7b')
    (hpost : ∀ c ∈ post, c ≠ '\x7b') :
    convertCodeBlocksAux (n + 1)
      (pre ++ (codeTag ++ ('\n' :: (body ++ '\n' :: (codeTag ++ post))))) =
      pre ++ (fenceRepl none body ++ post) := by
  rw [convertCodeBlocksAux, findCodeMatch_region_plain pre body post hpre hbody]
  dsimp only
  have hnone : findCodeMatch (pre ++ fenceRepl none body ++ post) = none := by
    apply findCodeMatch_none
    intro c hc
    simp only [List.append_assoc, List.mem_append] at hc
    rcases hc with hc | hc | hc
    · exact hpre c hc
    · rcases mem_of_mem_fenceRepl_none hc with rfl | rfl | hcb
      · decide
      · decide
      · exact hbody c hcb
    · exact hpost c hc
  rw [convertCodeBlocksAux_eq_self n _ hnone]
  simp

theorem convertQuoteBlocksAux_region (n : Nat) (pre body post : List Char)
    (hpre : ∀ c ∈ pre, c ≠ '\x7b') (hbody : ∀ c ∈ body, c ≠ '\x7b')
    (hpost : ∀ c ∈ post, c ≠ '\x7b') :
    convertQuoteBlocksAux (n + 1)
      (pre ++ (quoteTag ++ ('\n' :: (body ++ '\n' :: (quoteTag ++ post))))) =
      pre ++ (quoteRepl body ++ post) := by
  rw [convertQuoteBlocksAux, findQuoteMatch_region pre body post hpre hbody]
  dsimp only
  have hnone : findQuoteMatch (pre ++ quoteRepl body ++ post) = none := by
    apply findQuoteMatch_none
    intro c hc
    simp only [List.append_assoc, List.mem_append] at hc
    rcases hc with hc | hc | hc
    · exact hpre c hc
    · rcases mem_of_mem_quoteRepl hc with rfl | rfl | rfl | hcb
      · decide
      · decide
      · decide
      · exact hbody c hcb
    · exact hpost c hc
  rw [convertQuoteBlocksAux_eq_self n _ hnone]
  simp

/-! ### The two link passes, named -/

/-- The first replacement of Go `convertLinks`: `[text|url]` → `[text](url)`. -/
def linksClassicPass (s : String) : String := ⟨links1Go s.data⟩

/-- The second replacement of Go `convertLinks`: `[http(s)://…]` → bare URL. -/
def linksBarePass (s : String) : String := ⟨links2Go s.data⟩


/-! ### Claim theorems -/

theorem mem_take_one_of_head {c : Char} {l : List Char}
    (h : l.head? = some c) : c ∈ l.take 1 := by
  cases l with
  | nil => simp at h
  | cons a t =>
    simp only [List.head?_cons, Option.some.injEq] at h
    subst h
    simp

/-- Claim C8: the Inline Code stage (`convertInlineCode`) replaces every
occurrence of `{{expr}}` — `expr` non-empty and free of `}`, with no
earlier `{` before the occurrence — by the backtick span `` `expr` ``,
and continues scanning the remainder; in particular `{{x := 1}}` becomes
`` `x := 1` ``. -/
theorem claim_c8_inline_code :
    (∀ pre expr post : List Char,
      (∀ c ∈ pre, c ≠ '\x7b') → expr ≠ [] → (∀ c ∈ expr, c ≠ '\x7d') →
      convertInlineCode ⟨pre ++ '\x7b' :: '\x7b' :: (expr ++ '\x7d' :: '\x7d' :: post)⟩ =
        ⟨pre ++ '`' :: (expr ++ '`' :: (convertInlineCode ⟨post⟩).data)⟩) ∧
    convertInlineCode "\x7b\x7bx := 1\x7d\x7d" = "`x := 1`" := by
  constructor
  · intro pre expr post hpre hne hexpr
    exact congrArg String.mk (inlineCodeGo_append pre expr post hpre hne hexpr)
  · decide

theorem claim_c8_witness :
    convertInlineCode ⟨['a'] ++ '\x7b' :: '\x7b' :: (['x'] ++ '\x7d' :: '\x7d' :: ['b'])⟩ =
      ⟨['a'] ++ '`' :: (['x'] ++ '`' :: (convertInlineCode ⟨['b']⟩).data)⟩ :=
  claim_c8_inline_code.1 ['a'] ['x'] ['b'] (by decide) (by decide) (by decide)

/-- Claim C6: the converter never fails on unterminated block markers: a
lone `{code}` or `{quote}` opener with no closer is left in place by its
block stage, and the whole pipeline returns such inputs unchanged (the
embedding is a total function `String → String`). -/
theorem claim_c6_unterminated :
    (∀ pre post : List Char,
      (∀ c ∈ pre, c ≠ '\x7b') → (∀ c ∈ post, c ≠ '\x7b') →
      convertCodeBlocks ⟨pre ++ (codeTag ++ post)⟩ = ⟨pre ++ (codeTag ++ post)⟩) ∧
    (∀ pre post : List Char,
      (∀ c ∈ pre, c ≠ '\x7b') → (∀ c ∈ post, c ≠ '\x7b') →
      convertQuoteBlocks ⟨pre ++ (quoteTag ++ post)⟩ = ⟨pre ++ (quoteTag ++ post)⟩) ∧
    ConvertJiraToMarkdown "\x7bcode\x7d\nfoo" = "\x7bcode\x7d\nfoo" ∧
    ConvertJiraToMarkdown "\x7bquote\x7dnope" = "\x7bquote\x7dnope" := by
  refine ⟨?_, ?_, by decide, by decide⟩
  · intro pre post h1 h2
    exact congrArg String.mk (convertCodeBlocksAux_eq_self _ _
      (findCodeMatch_unterminated pre post h1 h2))
  · intro pre post h1 h2
    exact congrArg String.mk (convertQuoteBlocksAux_eq_self _ _
      (findQuoteMatch_unterminated pre post h1 h2))

theorem claim_c6_witness :
    convertCodeBlocks ⟨['a'] ++ (codeTag ++ ['b'])⟩ = ⟨['a'] ++ (codeTag ++ ['b'])⟩ :=
  claim_c6_unterminated.1 ['a'] ['b'] (by decide) (by decide)

/-- Claim C9 (amended): `convertQuoteBlocks` replaces a `{quote} ... {quote}`
region by its interior with the leading and trailing newlines trimmed,
each remaining line prefixed `> ` and right-trimmed of trailing spaces
(tabs are kept by this stage); the spec example converts as stated. -/
theorem claim_c9_quote_blocks :
    (∀ pre body post : List Char,
      (∀ c ∈ pre, c ≠ '\x7b') → (∀ c ∈ body, c ≠ '\x7b') →
      (∀ c ∈ post, c ≠ '\x7b') →
      convertQuoteBlocks ⟨pre ++ (quoteTag ++ ('\n' :: (body ++ '\n' :: (quoteTag ++ post))))⟩ =
        ⟨pre ++ (quoteRepl body ++ post)⟩) ∧
    (∀ body : List Char, quoteRepl body =
      joinNl ((splitOnChar '\n' (trimBothIn ['\n'] body)).map
        (fun l => '>' :: ' ' :: trimRightIn [' '] l))) ∧
    convertQuoteBlocks "\x7bquote\x7d\nLine 1\nLine 2\n\x7bquote\x7d" = "> Line 1\n> Line 2" := by
  refine ⟨?_, fun body => rfl, by decide⟩
  intro pre body post h1 h2 h3
  exact congrArg String.mk (convertQuoteBlocksAux_region _ pre body post h1 h2 h3)

theorem claim_c9_witness :
    convertQuoteBlocks ⟨['a'] ++ (quoteTag ++ ('\n' :: (['x'] ++ '\n' :: (quoteTag ++ ['b']))))⟩ =
      ⟨['a'] ++ (quoteRepl ['x'] ++ ['b'])⟩ :=
  claim_c9_quote_blocks.1 ['a'] ['x'] ['b'] (by decide) (by decide) (by decide)

/-- Claim C9, counterexample to the claim as stated: on
`"{quote}\n\nx\t\n{quote}"` the interior lines are `""` and `"x\t"`, so
prefix-and-right-trim of every interior line would give `">\n> x"`; the
code instead drops the leading blank line and keeps the tab, producing
`"> x\t"`. -/
theorem claim_c9_counterexample :
    convertQuoteBlocks "\x7bquote\x7d\n\nx\t\n\x7bquote\x7d" = "> x\t" ∧
    convertQuoteBlocks "\x7bquote\x7d\n\nx\t\n\x7bquote\x7d" ≠ ">\n> x" := by
  exact ⟨by decide, by decide⟩

/-- Claim C10: `ConvertJiraToMarkdown` maps the empty string to the empty
string; on every other input it first normalizes line endings and only
then runs the remaining stages; the two-pass Go normalization equals the
single-pass specification that turns every `\r\n` and every lone `\r`
into `\n`; and the spec's CRLF example converts as stated. -/
theorem claim_c10_pipeline :
    ConvertJiraToMarkdown "" = "" ∧
    (∀ s : String, s ≠ "" →
      ConvertJiraToMarkdown s = jiraStagesAfterNormalize (normalizeNewlines s)) ∧
    (∀ l : List Char, (normalizeNewlines ⟨l⟩).data = specNewlineNormalize l) ∧
    ConvertJiraToMarkdown "h2. Title\r\n* item\r\n" = "## Title\n- item\n" := by
  refine ⟨rfl, ?_, ?_, by decide⟩
  · intro s hs
    simp [ConvertJiraToMarkdown, hs]
  · intro l
    exact normalize_eq_spec l

theorem claim_c10_witness :
    ConvertJiraToMarkdown "x" = jiraStagesAfterNormalize (normalizeNewlines "x") :=
  claim_c10_pipeline.2.1 "x" (by decide)


/-- Claim C1 (amended): `convertCodeBlocks` rewraps a region opened by
a code opener with language and closed by a plain code tag as a fenced
block whose opening fence carries the trimmed language, and likewise the
plain opener yields an untagged fence; the interior body is
right-trimmed of all trailing newlines (not merely one trailing blank
line), and the spec example converts as stated. -/
theorem claim_c1_code_blocks :
    (∀ pre lang body post : List Char,
      (∀ c ∈ pre, c ≠ '\x7b') → (∀ c ∈ body, c ≠ '\x7b') →
      (∀ c ∈ post, c ≠ '\x7b') → lang ≠ [] →
      (∀ c ∈ lang, c ≠ '\x7d' ∧ c ≠ '\n' ∧ c ≠ '\x7b') →
      convertCodeBlocks ⟨pre ++ (codeLangOpen ++ (lang ++ '\x7d' :: '\n' ::
          (body ++ '\n' :: (codeTag ++ post))))⟩ =
        ⟨pre ++ (fenceRepl (some lang) body ++ post)⟩) ∧
    (∀ pre body post : List Char,
      (∀ c ∈ pre, c ≠ '\x7b') → (∀ c ∈ body, c ≠ '\x7b') →
      (∀ c ∈ post, c ≠ '\x7b') →
      convertCodeBlocks
          ⟨pre ++ (codeTag ++ ('\n' :: (body ++ '\n' :: (codeTag ++ post))))⟩ =
        ⟨pre ++ (fenceRepl none body ++ post)⟩) ∧
    (∀ body, fenceRepl none body =
      '`' :: '`' :: '`' :: ('\n' :: trimRightIn ['\n'] body ++
        '\n' :: '`' :: '`' :: '`' :: [])) ∧
    convertCodeBlocks "\x7bcode:go\x7d\nfmt.Println(\"hi\")\n\x7bcode\x7d" =
      "```go\nfmt.Println(\"hi\")\n```" := by
  refine ⟨?_, ?_, fun body => by simp [fenceRepl], by decide⟩
  · intro pre lang body post h1 h2 h3 h4 h5
    exact congrArg String.mk
      (convertCodeBlocksAux_region_lang
        (pre ++ (codeLangOpen ++ (lang ++ '\x7d' :: '\n' ::
          (body ++ '\n' :: (codeTag ++ post))))).length
        pre lang body post h1 h2 h3 h4 h5)
  · intro pre body post h1 h2 h3
    exact congrArg String.mk
      (convertCodeBlocksAux_region_plain
        (pre ++ (codeTag ++ ('\n' :: (body ++ '\n' :: (codeTag ++ post))))).length
        pre body post h1 h2 h3)

theorem claim_c1_witness :
    convertCodeBlocks ⟨['a'] ++ (codeLangOpen ++ (['g', 'o'] ++ '\x7d' :: '\n' ::
        (['x'] ++ '\n' :: (codeTag ++ ['b']))))⟩ =
      ⟨['a'] ++ (fenceRepl (some ['g', 'o']) ['x'] ++ ['b'])⟩ :=
  claim_c1_code_blocks.1 ['a'] ['g', 'o'] ['x'] ['b']
    (by decide) (by decide) (by decide) (by decide) (by decide)

/-- Claim C1, counterexample to the claim as stated: the interior of
`"\x7bcode\x7d\nx\n\n\n\x7bcode\x7d"` is the lines `x`, ` `, ` ` (two
trailing blank lines); trimming at most one of them would keep a blank
line in the fence, but the code trims them all. -/
theorem claim_c1_counterexample :
    convertCodeBlocks "\x7bcode\x7d\nx\n\n\n\x7bcode\x7d" = "```\nx\n```" ∧
    convertCodeBlocks "\x7bcode\x7d\nx\n\n\n\x7bcode\x7d" ≠ "```\nx\n\n```" :=
  ⟨by decide, by decide⟩

/-- Claim C2: `convertLists` renders a line made of optional space/tab
indentation, a run of k ≥ 1 markers from {*, #}, whitespace and content
as 2*(k-1) spaces, then a dash-space when the first marker is `*` and
the literal ordered prefix when it is `#`, then the content — also for
mixed runs, where only the first marker picks the style while the whole
run length drives the indentation; the spec examples convert as stated. -/
theorem claim_c2_lists :
    (∀ (ws1 : List Char) (m : Char) (ms ws2 content : List Char),
      (∀ c ∈ ws1, c = ' ' ∨ c = '\t') →
      (m = '*' ∨ m = '#') → (∀ c ∈ ms, c = '*' ∨ c = '#') →
      ws2 ≠ [] → (∀ c ∈ ws2, regexSpace c = true) →
      (∀ c, content.head? = some c → regexSpace c = false) →
      (∀ c ∈ content, c ≠ '\n') →
      convertLists ⟨ws1 ++ ((m :: ms) ++ (ws2 ++ content))⟩ =
        ⟨List.replicate (2 * ms.length) ' ' ++
          (if m == '*' then '-' :: ' ' :: content
           else '1' :: '.' :: ' ' :: content)⟩) ∧
    convertLists "* top" = "- top" ∧
    convertLists "** nested" = "  - nested" ∧
    convertLists "# one" = "1. one" ∧
    convertLists "## two" = "  1. two" ∧
    convertLists "*# item" = "  - item" := by
  refine ⟨?_, by decide, by decide, by decide, by decide, by decide⟩
  intro ws1 m ms ws2 content hws1 hm hms hws2ne hws2 hchead hcnl
  apply congrArg String.mk
  exact listsGo_whole _ _ (by simp)
    (tryList_some ws1 m ms ws2 content hws1 hm hms hws2ne hws2 hchead hcnl)

theorem claim_c2_witness :
    convertLists ⟨[' '] ++ (('*' :: ['#']) ++ ([' '] ++ ['t', 'o', 'p']))⟩ =
      ⟨List.replicate (2 * ['#'].length) ' ' ++
        (if '*' == '*' then '-' :: ' ' :: ['t', 'o', 'p']
         else '1' :: '.' :: ' ' :: ['t', 'o', 'p'])⟩ :=
  claim_c2_lists.1 [' '] '*' ['#'] [' '] ['t', 'o', 'p']
    (by decide) (by decide) (by decide) (by decide) (by decide) (by decide) (by decide)

/-- Claim C3 (amended): `convertHeadings` converts a line starting with
`h`, a digit 1–6 and a dot, followed by any (possibly empty) run of
regex whitespace and a title, into that many hash marks, a space and
the title; digits outside 1–6 do not match and the line passes through
unchanged. -/
theorem claim_c3_headings :
    (∀ (d : Char) (ws title : List Char),
      '1' ≤ d ∧ d ≤ '6' →
      (∀ c ∈ ws, regexSpace c = true) →
      (∀ c, title.head? = some c → regexSpace c = false) →
      (∀ c ∈ title, c ≠ '\n') →
      convertHeadings ⟨'h' :: d :: '.' :: (ws ++ title)⟩ =
        ⟨List.replicate (d.toNat - '0'.toNat) '#' ++ ' ' :: title⟩) ∧
    convertHeadings "h1. Title" = "# Title" ∧
    convertHeadings "h3. Small" = "### Small" ∧
    convertHeadings "h7. X" = "h7. X" ∧
    convertHeadings "h0. X" = "h0. X" := by
  refine ⟨?_, by decide, by decide, by decide, by decide⟩
  intro d ws title hd hws hthead htnl
  apply congrArg String.mk
  exact headingsGo_whole _ _ (by simp)
    (tryHeading_some d ws title hd hws hthead htnl)

theorem claim_c3_witness :
    convertHeadings ⟨'h' :: '2' :: '.' :: ([' '] ++ ['T'])⟩ =
      ⟨List.replicate ('2'.toNat - '0'.toNat) '#' ++ ' ' :: ['T']⟩ :=
  claim_c3_headings.1 '2' [' '] ['T'] (by decide) (by decide) (by decide) (by decide)

/-- Claim C3, counterexample to the claim as stated: the heading match is
not restricted to the exact form with a mandatory space — the source
pattern allows zero whitespace after the dot, so `"h2.Title"` is
converted rather than passed through unchanged. -/
theorem claim_c3_counterexample :
    convertHeadings "h2.Title" = "## Title" ∧
    convertHeadings "h2.Title" ≠ "h2.Title" :=
  ⟨by decide, by decide⟩

/-- Claim C4: `convertTablesGoL` treats each maximal run of consecutive
lines whose trimmed form starts with a pipe as one block handed to
`convertTableBlockL`; a first line containing a double pipe is a header
row emitting the parsed header, a separator with one `---` cell per
header column, then the non-blank remaining lines as body rows; without
a header every non-blank line is a body row; cells are trimmed with
inner whitespace collapsed, and blank lines inside a block are dropped. -/
theorem claim_c4_tables :
    (∀ (xs bs : List (List Char)) (y : List Char) (zs : List (List Char)),
      (∀ l ∈ xs, pipeStart l = false) → bs ≠ [] →
      (∀ l ∈ bs, pipeStart l = true) → pipeStart y = false →
      convertTablesGoL (xs ++ (bs ++ y :: zs)) =
        xs ++ (convertTableBlockL bs ++ y :: convertTablesGoL zs)) ∧
    (∀ (hl : List Char) (bls : List (List Char)),
      containsDoublePipe (trimSpace hl) = true →
      parseJiraTableRowL hl true ≠ [] →
      convertTableBlockL (hl :: bls) =
        renderRow (parseJiraTableRowL hl true) ::
        renderRow (List.replicate (parseJiraTableRowL hl true).length
          ('-' :: '-' :: '-' :: [])) ::
        (bls.filter (fun ln => !(trimSpace ln).isEmpty)).map
          (fun ln => renderRow (parseJiraTableRowL ln false))) ∧
    (∀ (hl : List Char) (bls : List (List Char)),
      containsDoublePipe (trimSpace hl) = false →
      convertTableBlockL (hl :: bls) =
        ((hl :: bls).filter (fun ln => !(trimSpace ln).isEmpty)).map
          (fun ln => renderRow (parseJiraTableRowL ln false))) ∧
    convertTables "|| H1 || H2 ||\n| c1 | c2 |\n| c3 | c4 |" =
      "| H1 | H2 |\n| --- | --- |\n| c1 | c2 |\n| c3 | c4 |" ∧
    parseJiraTableRow "|| H1  ||  H2 ||" true = ["H1", "H2"] ∧
    parseJiraTableRow "| a  b | c |" false = ["a b", "c"] ∧
    convertTableBlock ["| a |", "  ", "| b |"] = ["| a |", "| b |"] :=
  ⟨convertTablesGoL_group, convertTableBlockL_header, convertTableBlockL_noheader,
    by decide, by decide, by decide, by decide⟩

theorem claim_c4_witness :
    convertTablesGoL ([['x']] ++ ([['|', 'a', '|']] ++ ['y'] :: [])) =
      [['x']] ++ (convertTableBlockL [['|', 'a', '|']] ++
        ['y'] :: convertTablesGoL []) :=
  claim_c4_tables.1 [['x']] [['|', 'a', '|']] ['y'] []
    (by decide) (by decide) (by decide) (by decide)

/-- Claim C5: `convertInlineStyles` is the composition bold, then italic,
then strike, then underline; each pass rewrites a delimited span whose
interior is non-empty and free of its own delimiter and of newlines
(bold additionally requires no star before the opener), wrapping it in
the target markers; spans crossing a newline are left alone, a doubled
star does not re-trigger bold, and empty interiors do not match. -/
theorem claim_c5_inline_styles :
    (∀ s : String, convertInlineStyles s =
      underlinePass (strikePass (italicPass (boldPass s)))) ∧
    (∀ pre int post : List Char,
      (∀ c ∈ pre, c ≠ '*') → int ≠ [] → (∀ c ∈ int, c ≠ '*' ∧ c ≠ '\n') →
      boldPass ⟨pre ++ '*' :: (int ++ '*' :: post)⟩ =
        ⟨pre ++ '*' :: '*' :: (int ++ '*' :: '*' :: boldGo false post)⟩) ∧
    (∀ pre int post : List Char,
      (∀ c ∈ pre, c ≠ '_') → int ≠ [] → (∀ c ∈ int, c ≠ '_' ∧ c ≠ '\n') →
      italicPass ⟨pre ++ '_' :: (int ++ '_' :: post)⟩ =
        ⟨pre ++ ['*'] ++ int ++ ['*'] ++ styleGo '_' ['*'] ['*'] post⟩) ∧
    (∀ pre int post : List Char,
      (∀ c ∈ pre, c ≠ '-') → int ≠ [] → (∀ c ∈ int, c ≠ '-' ∧ c ≠ '\n') →
      strikePass ⟨pre ++ '-' :: (int ++ '-' :: post)⟩ =
        ⟨pre ++ ['~', '~'] ++ int ++ ['~', '~'] ++
          styleGo '-' ['~', '~'] ['~', '~'] post⟩) ∧
    (∀ pre int post : List Char,
      (∀ c ∈ pre, c ≠ '+') → int ≠ [] → (∀ c ∈ int, c ≠ '+' ∧ c ≠ '\n') →
      underlinePass ⟨pre ++ '+' :: (int ++ '+' :: post)⟩ =
        ⟨pre ++ ['<', 'u', '>'] ++ int ++ ['<', '/', 'u', '>'] ++
          styleGo '+' ['<', 'u', '>'] ['<', '/', 'u', '>'] post⟩) ∧
    convertInlineStyles "This is *bold* and _italic_ and -strike- and +under+." =
      "This is **bold** and *italic* and ~~strike~~ and <u>under</u>." ∧
    convertInlineStyles "*a\nb*" = "*a\nb*" ∧
    boldPass "**x**" = "**x**" ∧
    convertInlineStyles "__" = "__" := by
  refine ⟨fun s => rfl, ?_, ?_, ?_, ?_, by decide, by decide, by decide, by decide⟩
  · intro pre int post h1 h2 h3
    exact congrArg String.mk (boldGo_append pre true int post h1 (Or.inl rfl) h2 h3)
  · intro pre int post h1 h2 h3
    exact congrArg String.mk (styleGo_append '_' ['*'] ['*'] pre int post h1 h2 h3)
  · intro pre int post h1 h2 h3
    exact congrArg String.mk
      (styleGo_append '-' ['~', '~'] ['~', '~'] pre int post h1 h2 h3)
  · intro pre int post h1 h2 h3
    exact congrArg String.mk
      (styleGo_append '+' ['<', 'u', '>'] ['<', '/', 'u', '>'] pre int post h1 h2 h3)

theorem claim_c5_witness :
    boldPass ⟨['a'] ++ '*' :: (['x'] ++ '*' :: ['b'])⟩ =
      ⟨['a'] ++ '*' :: '*' :: (['x'] ++ '*' :: '*' :: boldGo false ['b'])⟩ :=
  claim_c5_inline_styles.2.1 ['a'] ['x'] ['b'] (by decide) (by decide) (by decide)

/-- Claim C7: `convertLinks` runs the classic pass first and the bare
pass second; the classic pass rewrites a bracketed text-pipe-url span
into bracketed text followed by the parenthesised url, the bare pass
strips the brackets from a bracketed http or https url, and both emit
the text and url payloads verbatim; the spec examples convert as
stated. -/
theorem claim_c7_links :
    (∀ s : String, convertLinks s = linksBarePass (linksClassicPass s)) ∧
    (∀ pre t u post : List Char,
      (∀ c ∈ pre, c ≠ '[') →
      t ≠ [] → (∀ c ∈ t, c ≠ ']' ∧ c ≠ '|') →
      u ≠ [] → (∀ c ∈ u, c ≠ ']') →
      linksClassicPass ⟨pre ++ '[' :: (t ++ '|' :: (u ++ ']' :: post))⟩ =
        ⟨pre ++ '[' :: (t ++ ']' :: '(' :: (u ++ ')' :: links1Go post))⟩) ∧
    (∀ pre u post : List Char,
      (∀ c ∈ pre, c ≠ '[') → u ≠ [] → (∀ c ∈ u, c ≠ ']') →
      linksBarePass ⟨pre ++ '[' :: (httpsScheme ++ (u ++ ']' :: post))⟩ =
        ⟨pre ++ httpsScheme ++ u ++ links2Go post⟩) ∧
    (∀ pre u post : List Char,
      (∀ c ∈ pre, c ≠ '[') → u ≠ [] → (∀ c ∈ u, c ≠ ']') →
      linksBarePass ⟨pre ++ '[' :: (httpScheme ++ (u ++ ']' :: post))⟩ =
        ⟨pre ++ httpScheme ++ u ++ links2Go post⟩) ∧
    convertLinks "[Example|https://example.com]" = "[Example](https://example.com)" ∧
    convertLinks "[https://example.org]" = "https://example.org" := by
  refine ⟨fun s => rfl, ?_, ?_, ?_, by decide, by decide⟩
  · intro pre t u post h1 h2 h3 h4 h5
    exact congrArg String.mk (links1Go_append pre t u post h1 h2 h3 h4 h5)
  · intro pre u post h1 h2 h3
    exact congrArg String.mk (links2Go_append_https pre u post h1 h2 h3)
  · intro pre u post h1 h2 h3
    exact congrArg String.mk (links2Go_append_http pre u post h1 h2 h3)

theorem claim_c7_witness :
    linksClassicPass ⟨['a'] ++ '[' :: (['t'] ++ '|' :: (['u'] ++ ']' :: ['b']))⟩ =
      ⟨['a'] ++ '[' :: (['t'] ++ ']' :: '(' :: (['u'] ++ ')' :: links1Go ['b']))⟩ :=
  claim_c7_links.2.1 ['a'] ['t'] ['u'] ['b']
    (by decide) (by decide) (by decide) (by decide) (by decide)


end JiraMd
